import Mathlib

/-!
Shallow embedding of the voxel-mapper core (amethyst/voxel-mapper) in Lean 4,
used to verify the natural-language specification against the source.

Embedded code:
* `src/voxel/double_buffer.rs` — `EditedChunksBackBuffer::edit_voxels_out_of_place`
  and `VoxelDoubleBufferingSystem::run` (staged voxel edits, dirty-chunk set, merge).
* `src/voxel/chunk_cache_compressor.rs` — `ChunkCacheCompressorSystem::run`.
* `src/collision/voxel_bvt.rs` — `generate_chunk_bvt`.
* `src/collision.rs` — `nearest_bounding_volume_ray_cast` / `NearestBVRayCast::visit`
  and `extreme_ball_voxel_impact`.
* `src/finite_astar.rs` — `finite_astar`.

Library types the source uses (`building_blocks` chunk maps, `ncollide3d` DBVT
visitors, Rust `BinaryHeap` / `IndexMap`) are modelled explicitly below, with the
documented semantics the source relies on.  Machine integers are modelled as
`Int`/`Nat` (the program never exercises overflow in the quantities embedded
here), dense chunk arrays as total functions from points to voxels, hash maps as
association lists, and hash sets as duplicate-free insertion lists.
-/

namespace VoxelMapper

/-! ## Lattice geometry: `Point3i`, `Extent3i`, chunk keys -/

/-- `Point3i` from `building_blocks` / `ilattice3`: a point of the voxel lattice. -/
structure Point3 where
  x : Int
  y : Int
  z : Int
deriving DecidableEq, Repr

instance : Add Point3 := ⟨fun a b => ⟨a.x + b.x, a.y + b.y, a.z + b.z⟩⟩

instance : Sub Point3 := ⟨fun a b => ⟨a.x - b.x, a.y - b.y, a.z - b.z⟩⟩

/-- `VOXEL_CHUNK_SHAPE`: chunks are 16×16×16 (`src/voxel.rs`). -/
def VOXEL_CHUNK_SHAPE : Point3 := ⟨16, 16, 16⟩

/-- `Extent3i` in its `from_min_and_max` form: the box of points `p` with
`minimum ≤ p ≤ maximum` componentwise. -/
structure Extent3i where
  minimum : Point3
  maximum : Point3
deriving DecidableEq, Repr

def Extent3i.fromMinAndMax (mn mx : Point3) : Extent3i := ⟨mn, mx⟩

def Extent3i.containsPoint (e : Extent3i) (p : Point3) : Prop :=
  e.minimum.x ≤ p.x ∧ p.x ≤ e.maximum.x ∧
  e.minimum.y ≤ p.y ∧ p.y ≤ e.maximum.y ∧
  e.minimum.z ≤ p.z ∧ p.z ≤ e.maximum.z

instance (e : Extent3i) (p : Point3) : Decidable (e.containsPoint p) := by
  unfold Extent3i.containsPoint; infer_instance

/-- The inclusive integer range `[lo, hi]` as a list. -/
def intRange (lo hi : Int) : List Int :=
  (List.range (hi + 1 - lo).toNat).map (fun (i : Nat) => lo + (i : Int))

/-- All points of an extent (row-major; order is irrelevant to the claims). -/
def Extent3i.points (e : Extent3i) : List Point3 :=
  (intRange e.minimum.x e.maximum.x).flatMap (fun px =>
    (intRange e.minimum.y e.maximum.y).flatMap (fun py =>
      (intRange e.minimum.z e.maximum.z).map (fun pz => ⟨px, py, pz⟩)))

/-- The key (minimum corner) of the chunk containing a point: componentwise
floor-division by the chunk shape, scaled back up. -/
def chunkKeyContaining (p : Point3) : Point3 :=
  ⟨16 * (p.x / 16), 16 * (p.y / 16), 16 * (p.z / 16)⟩

/-- `ChunkMapReader3::chunk_keys_for_extent`: the keys of all chunks whose
extents overlap the query extent (purely geometric, present or not). -/
def chunkKeysForExtent (e : Extent3i) : List Point3 :=
  (intRange (e.minimum.x / 16) (e.maximum.x / 16)).flatMap (fun kx =>
    (intRange (e.minimum.y / 16) (e.maximum.y / 16)).flatMap (fun ky =>
      (intRange (e.minimum.z / 16) (e.maximum.z / 16)).map (fun kz =>
        ⟨16 * kx, 16 * ky, 16 * kz⟩)))

/-- `ChunkMapReader3::extent_for_chunk_at_key`. -/
def extentForChunkAtKey (k : Point3) : Extent3i :=
  ⟨k, k + ⟨15, 15, 15⟩⟩

/-! ## Voxels, chunks, and the compressible chunk map -/

/-- `Voxel` (`src/voxel.rs`): a palette address (`u8`) and a quantized signed
distance (`i8`). -/
structure Voxel where
  paletteAddress : Nat
  distance : Int
deriving DecidableEq, Repr

/-- `EMPTY_VOXEL` (`src/voxel.rs`): palette address 0, distance `i8::MAX`. -/
def EMPTY_VOXEL : Voxel := ⟨0, 127⟩

/-- A dense chunk array, modelled as a total function on the lattice; only the
values inside the chunk's own extent are ever read. -/
structure Chunk3 where
  array : Point3 → Voxel

/-- `empty_array` over a chunk extent: every point holds the ambient empty voxel
(the referenced snapshot keeps this helper in `src/voxel.rs`). -/
def emptyChunk : Chunk3 := ⟨fun _ => EMPTY_VOXEL⟩

/-- `MaybeCompressed` from `building_blocks::storage::compressible_map`: a chunk
slot of a `CompressibleMap` is either live (decompressed) or a compressed blob.
Compression is value-preserving, so the blob is modelled by the chunk it
decodes to. -/
inductive MaybeCompressed where
  | compressed (c : Chunk3)
  | decompressed (c : Chunk3)

/-- The chunk a slot decodes to, whatever its compression state. -/
def MaybeCompressed.chunk : MaybeCompressed → Chunk3
  | .compressed c => c
  | .decompressed c => c

def MaybeCompressed.isDecompressed : MaybeCompressed → Prop
  | .compressed _ => False
  | .decompressed _ => True

instance (mc : MaybeCompressed) : Decidable mc.isDecompressed := by
  cases mc <;> unfold MaybeCompressed.isDecompressed <;> infer_instance

/-- The keyed chunk storage of a `ChunkMap3<Voxel>`, modelled as an association
list from chunk key to slot (the hash map's iteration order is irrelevant to
the claims; lookups take the first match and the staging code never inserts a
key twice). -/
abbrev ChunkAList := List (Point3 × MaybeCompressed)

def alGet : ChunkAList → Point3 → Option MaybeCompressed
  | [], _ => none
  | e :: rest, k => if e.1 = k then some e.2 else alGet rest k

def alKeys (m : ChunkAList) : List Point3 := m.map (·.1)

/-- `CompressibleMap::get_or_insert_with`: keep an existing slot, otherwise
insert the freshly produced chunk (decompressed). -/
def alGetOrInsertWith (m : ChunkAList) (k : Point3) (fresh : Chunk3) : ChunkAList :=
  match alGet m k with
  | some _ => m
  | none => m ++ [(k, .decompressed fresh)]

/-- Replace the value at an existing key in place (first occurrence). -/
def alSet (m : ChunkAList) (k : Point3) (v : MaybeCompressed) : ChunkAList :=
  m.map (fun e => if e.1 = k then (k, v) else e)

/-- `CompressibleMap::insert` (used by the merge): replace or append. -/
def alInsert (m : ChunkAList) (k : Point3) (v : MaybeCompressed) : ChunkAList :=
  match alGet m k with
  | some _ => alSet m k v
  | none => m ++ [(k, v)]

/-- The authoritative `VoxelMap`'s chunked voxel storage. -/
structure VoxelMapM where
  chunks : ChunkAList

/-- `ChunkMap3` point lookup into a keyed chunk store: the voxel at `p` is
read out of the chunk whose key contains `p`, defaulting to the ambient empty
voxel. -/
def alRead (m : ChunkAList) (p : Point3) : Voxel :=
  match alGet m (chunkKeyContaining p) with
  | some mc => mc.chunk.array p
  | none => EMPTY_VOXEL

/-- `ChunkMap3::get` on the authoritative map. -/
def voxelAt (m : VoxelMapM) (p : Point3) : Voxel :=
  alRead m.chunks p

/-- `ChunkMapReader3::get_chunk` (reads through the local cache, which is
value-transparent): the decompressed view of the stored chunk, if any. -/
def readerGetChunk (m : VoxelMapM) (k : Point3) : Option Chunk3 :=
  (alGet m.chunks k).map MaybeCompressed.chunk

/-! ## `EditedChunksBackBuffer` (`src/voxel/double_buffer.rs`) -/

/-- The voxel edit functions `impl Fn(Point3i, &mut Voxel)`, in functional
form. -/
abbrev EditFunc := Point3 → Voxel → Voxel

/-- `EditedChunksBackBuffer`: out-of-place staging area for a tick's edits. -/
structure EditedChunksBackBuffer where
  editedVoxels : ChunkAList
  dirtyChunkKeys : List Point3

/-- `EditedChunksBackBuffer::new`. -/
def EditedChunksBackBuffer.new : EditedChunksBackBuffer := ⟨[], []⟩

/-- `HashSet::insert` on the dirty-key set, modelled as append-if-absent. -/
def hsInsert (s : List Point3) (k : Point3) : List Point3 :=
  if k ∈ s then s else s ++ [k]

/-- One point-update of `ChunkMap3::for_each_mut`: mutable access to the voxel
at `p` (decompressing the slot in place, creating an ambient-filled chunk when
the key is absent), then apply the edit closure at `p`. -/
def chunkWriteAt (m : ChunkAList) (editFunc : EditFunc) (p : Point3) : ChunkAList :=
  let k := chunkKeyContaining p
  match alGet m k with
  | some mc =>
      alSet m k (.decompressed
        ⟨fun q => if q = p then editFunc p (mc.chunk.array p) else mc.chunk.array q⟩)
  | none =>
      m ++ [(k, .decompressed
        ⟨fun q => if q = p then editFunc p EMPTY_VOXEL else EMPTY_VOXEL⟩)]

/-- `ChunkMap3::for_each_mut(extent, edit_func)`: apply the closure to every
point of the extent. -/
def forEachMut (m : ChunkAList) (extent : Extent3i) (editFunc : EditFunc) : ChunkAList :=
  extent.points.foldl (fun acc p => chunkWriteAt acc editFunc p) m

/-- The dirtied region of an edit: the extent expanded by one chunk shape in
every axis (lines 49–52 of `double_buffer.rs`). -/
def extentWithNeighborChunks (extent : Extent3i) : Extent3i :=
  Extent3i.fromMinAndMax (extent.minimum - VOXEL_CHUNK_SHAPE)
    (extent.maximum + VOXEL_CHUNK_SHAPE)

/-- `EditedChunksBackBuffer::edit_voxels_out_of_place`: copy not-yet-staged
overlapping chunks out of the reader, mark the expanded extent's chunks dirty,
and apply the edit closure to the backbuffer. -/
def editVoxelsOutOfPlace (bb : EditedChunksBackBuffer) (reader : VoxelMapM)
    (extent : Extent3i) (editFunc : EditFunc) : EditedChunksBackBuffer :=
  let staged := (chunkKeysForExtent extent).foldl
    (fun m chunkKey =>
      alGetOrInsertWith m chunkKey
        ((readerGetChunk reader chunkKey).getD emptyChunk))
    bb.editedVoxels
  let dirty := (chunkKeysForExtent (extentWithNeighborChunks extent)).foldl
    hsInsert bb.dirtyChunkKeys
  ⟨forEachMut staged extent editFunc, dirty⟩

/-! ## `VoxelDoubleBufferingSystem` (`src/voxel/double_buffer.rs`) -/

/-- The world state the double-buffering systems act on: the authoritative map
plus the staging backbuffer.  Voxel editors receive the map read-only and the
backbuffer mutably. -/
structure WorldState where
  map : VoxelMapM
  backbuffer : EditedChunksBackBuffer

/-- One `edit_voxels_out_of_place` call, as a step on the world state. -/
def stageEdit (w : WorldState) (extent : Extent3i) (editFunc : EditFunc) : WorldState :=
  { w with backbuffer := editVoxelsOutOfPlace w.backbuffer w.map extent editFunc }

/-- A whole tick's worth of staged edits. -/
def stageEdits (w : WorldState) (edits : List (Extent3i × EditFunc)) : WorldState :=
  edits.foldl (fun acc e => stageEdit acc e.1 e.2) w

/-- Merge loop of `VoxelDoubleBufferingSystem::run` (lines 90–97): insert every
decompressed staged chunk into the map; a compressed staged chunk is the
`panic!("Never compress the back buffer")` branch, modelled as `none`. -/
def mergeChunksInto (entries : ChunkAList) (m : ChunkAList) : Option ChunkAList :=
  entries.foldl
    (fun acc e =>
      acc.bind (fun mAcc =>
        match e.2 with
        | .compressed _ => none
        | .decompressed c => some (alInsert mAcc e.1 (.decompressed c))))
    (some m)

/-- Output of `VoxelDoubleBufferingSystem::run`: the merged map, the emitted
`DirtyChunks` resource, and the replaced (fresh) backbuffer. -/
structure MergeOut where
  map : VoxelMapM
  dirty : List Point3
  backbuffer : EditedChunksBackBuffer

/-- `VoxelDoubleBufferingSystem::run`: swap in a fresh backbuffer, merge the
edits into the map (`none` models the panic branch), and publish the dirty
set. -/
def voxelDoubleBufferingRun (w : WorldState) : Option MergeOut :=
  (mergeChunksInto w.backbuffer.editedVoxels w.map.chunks).map
    (fun merged => ⟨⟨merged⟩, w.backbuffer.dirtyChunkKeys, EditedChunksBackBuffer.new⟩)

/-- The voxel a point of the backbuffer currently holds (ambient where no
chunk is staged). -/
def backbufferVoxelAt (bb : EditedChunksBackBuffer) (p : Point3) : Voxel :=
  alRead bb.editedVoxels p

/-- Every slot of a chunk store is in the decompressed state. -/
def AllDecompressed (m : ChunkAList) : Prop :=
  ∀ e ∈ m, e.2.isDecompressed

/-- The chunk key of `p`'s chunk together with its 26 face-, edge- and
corner-adjacent chunk keys. -/
def chunkNeighborhood27 (c : Point3) : List Point3 :=
  [(-16 : Int), 0, 16].flatMap (fun dx =>
    [(-16 : Int), 0, 16].flatMap (fun dy =>
      [(-16 : Int), 0, 16].map (fun dz => ⟨c.x + dx, c.y + dy, c.z + dz⟩)))

/-! ## `ChunkCacheCompressorSystem` (`src/voxel/chunk_cache_compressor.rs`)

Only the cache-occupancy bookkeeping of the `CompressibleMap` matters to the
eviction claim, so the map is modelled by which chunk keys sit in the live
(decompressed) LRU cache — least recently used first — and which sit compressed. -/

structure CompressibleCacheState where
  /-- Keys of live decompressed chunks, least-recently-used at the head. -/
  cached : List Point3
  /-- Keys of compressed chunks. -/
  compressed : List Point3
deriving DecidableEq, Repr

/-- `CompressibleMap::len_cached`. -/
def CompressibleCacheState.lenCached (st : CompressibleCacheState) : Nat :=
  st.cached.length

/-- `CompressibleMap::compress_lru`: compress the least-recently-used live
chunk, if any. -/
def compressLru (st : CompressibleCacheState) : CompressibleCacheState :=
  match st.cached with
  | [] => st
  | k :: rest => ⟨rest, k :: st.compressed⟩

/-- `MAX_CACHED_CHUNKS` (`chunk_cache_compressor.rs`). -/
def MAX_CACHED_CHUNKS : Nat := 1000000

/-- `MAX_COMPRESSED_PER_FRAME_PER_CORE` (`chunk_cache_compressor.rs`). -/
def MAX_COMPRESSED_PER_FRAME_PER_CORE : Nat := 50

/-- `ChunkCacheCompressorSystem::run`, with the two tuning constants as
parameters: compute the signed overgrowth and call `compress_lru` that many
times, clamped to `[0, maxCompressedPerTick]`. -/
def chunkCacheCompressorRun (maxCachedChunks maxCompressedPerTick : Nat)
    (st : CompressibleCacheState) : CompressibleCacheState :=
  let overgrowth : Int := (st.lenCached : Int) - (maxCachedChunks : Int)
  compressLru^[(min (max overgrowth 0) (maxCompressedPerTick : Int)).toNat] st

/-- The system as shipped, with the source's constants plugged in. -/
def chunkCacheCompressorSystemRun : CompressibleCacheState → CompressibleCacheState :=
  chunkCacheCompressorRun MAX_CACHED_CHUNKS MAX_COMPRESSED_PER_FRAME_PER_CORE

/-! ## `generate_chunk_bvt` (`src/collision/voxel_bvt.rs`) -/

/-- An axis-aligned box with exact (integer) corners; `voxel_aabb` only ever
produces unit boxes at lattice points, whose `f32` corners are exact. -/
structure Aabb where
  mins : Point3
  maxs : Point3
deriving DecidableEq, Repr

/-- `voxel_aabb` (`src/voxel.rs`): the unit AABB of a voxel, corners `(p, p+1)`. -/
def voxelAabb (p : Point3) : Aabb := ⟨p, p + ⟨1, 1, 1⟩⟩

/-- The voxel source `generate_chunk_bvt` reads: a dense array over (at least)
the query extent.  `chunk.get_extent()` data from `iter_chunks_with_boundary`
carries a one-voxel boundary, so neighbor reads are always in bounds; the
model therefore uses a total occupancy function. -/
abbrev VoxelSource := Point3 → Bool

/-- The six face-adjacent offsets (`ilattice3::point::FACE_ADJACENT_OFFSETS`). -/
def faceAdjacentOffsets : List Point3 :=
  [⟨1, 0, 0⟩, ⟨-1, 0, 0⟩, ⟨0, 1, 0⟩, ⟨0, -1, 0⟩, ⟨0, 0, 1⟩, ⟨0, 0, -1⟩]

/-- Modelled from the spec: `ilattice3::algos::find_surface_voxels` is not part
of this repository; per the spec a surface voxel is "a non-empty voxel adjacent
to at least one empty voxel" (face adjacency), collected over the query
extent.  `nonEmpty p = true` means the voxel at `p` is not `IsEmpty`. -/
def findSurfaceVoxels (nonEmpty : VoxelSource) (extent : Extent3i) : List Point3 :=
  extent.points.filter (fun p =>
    nonEmpty p && faceAdjacentOffsets.any (fun off => !nonEmpty (p + off)))

/-- A chunk-level `LatticeBVT` abstracted by its leaves: `generate_chunk_bvt`
builds the DBVT purely by inserting one `DBVTLeaf::new(voxel_aabb(p), p)` per
surface voxel, and the claims only concern that leaf set. -/
structure LatticeBvtLeaves where
  leaves : List (Aabb × Point3)
deriving DecidableEq, Repr

/-- `generate_chunk_bvt`: find the surface voxels; `None` when there are none,
otherwise a BVT with one unit-AABB leaf per surface voxel. -/
def generateChunkBvt (nonEmpty : VoxelSource) (extent : Extent3i) :
    Option LatticeBvtLeaves :=
  let solidPoints := findSurfaceVoxels nonEmpty extent
  if solidPoints.isEmpty then
    none
  else
    some ⟨solidPoints.map (fun p => (voxelAabb p, p))⟩

/-! ## `extreme_ball_voxel_impact` (`src/collision.rs`)

The `f32` geometry (`ncollide3d::query::time_of_impact` for the moving ball
against each voxel cuboid, with `max_toi = 1.0` and the caller's target
distance) is not re-derived; it enters the model as the function `toiFn` from a
candidate voxel to its optional impact.  The candidates are the lattice points
collected by the `BoundingVolumeInterferencesCollector` over the swept ball's
merged AABB, which enter as the list `interferingPoints`.  What remains — the
`start == end` early-out and the filter/reduce over candidates — is the
portion of the function the claim is about, embedded verbatim. -/

def extremeBallVoxelImpact {P IMPACT : Type} [DecidableEq P]
    (startPos endPos : P) (interferingPoints : List P)
    (toiFn : P → Option IMPACT) (cmpFn : IMPACT → IMPACT → IMPACT)
    (predicateFn : IMPACT → Bool) : Option IMPACT :=
  if startPos = endPos then
    none
  else
    interferingPoints.foldl
      (fun maybeBestImpact p =>
        match toiFn p with
        | some impact =>
            if !predicateFn impact then
              maybeBestImpact
            else
              match maybeBestImpact with
              | some bestImpact => some (cmpFn impact bestImpact)
              | none => some impact
        | none => maybeBestImpact)
      none

/-- The candidates that both yield an impact and pass the predicate, with their
impacts. -/
def validImpacts {P IMPACT : Type} (interferingPoints : List P)
    (toiFn : P → Option IMPACT) (predicateFn : IMPACT → Bool) : List IMPACT :=
  interferingPoints.filterMap
    (fun p => (toiFn p).bind (fun i => if predicateFn i then some i else none))

/-- The reduce the source's fold performs over the valid impacts, in order
(`cmp_fn(new_impact, best_so_far)`). -/
def selectImpact {IMPACT : Type} (cmpFn : IMPACT → IMPACT → IMPACT)
    (impacts : List IMPACT) : Option IMPACT :=
  impacts.foldl
    (fun acc i =>
      match acc with
      | some b => some (cmpFn i b)
      | none => some i)
    none

/-! ## `nearest_bounding_volume_ray_cast` (`src/collision.rs`)

The `ncollide3d` `BVH` being visited is a binary bounding-volume tree (the
DBVT); `BVH::visit` calls the visitor on a node's bound, recursing into the
children (in index order) while the visitor answers `Continue` and pruning the
subtree on `Stop`.  The bound type `BV` and the ray stay abstract: all the
visitor ever does with them is `bv.toi_with_ray(&Isometry3::identity(), &ray,
true)`, which enters the model as `toiWithRay : BV → Option Q` for a linearly
ordered time type `Q` (exact stand-in for the finite `f32` times; the
`f32::max_value()` sentinel is `⊤` of `WithTop Q`). -/

inductive BVTree (BV T : Type) where
  | leaf (bv : BV) (data : T)
  | node (bv : BV) (left right : BVTree BV T)

def BVTree.rootBv {BV T : Type} : BVTree BV T → BV
  | .leaf bv _ => bv
  | .node bv _ _ => bv

def BVTree.leavesList {BV T : Type} : BVTree BV T → List (BV × T)
  | .leaf bv d => [(bv, d)]
  | .node _ l r => l.leavesList ++ r.leavesList

/-- `ncollide3d::partitioning::VisitStatus` (the visitor never answers
`ExitEarly`). -/
inductive VisitStatus where
  | Continue
  | Stop
deriving DecidableEq

/-- The mutable fields of `NearestBVRayCast` that the visit updates. -/
structure NearestCastState (BV T Q : Type) where
  earliestToi : WithTop Q
  nearestBv : Option BV
  nearestData : Option T

/-- `NearestBVRayCast::new`: `earliest_toi = f32::max_value()`, no best yet. -/
def NearestCastState.init (BV T Q : Type) : NearestCastState BV T Q := ⟨⊤, none, none⟩

/-- `NearestBVRayCast::visit` (lines 158–175 of `src/collision.rs`): one call of
the visitor on a node's bound and optional leaf data. -/
def nearestVisit {BV T Q : Type} [LinearOrder Q] (toiWithRay : BV → Option Q)
    (predicateFn : T → Bool) (bv : BV) (data : Option T)
    (s : NearestCastState BV T Q) : VisitStatus × NearestCastState BV T Q :=
  match toiWithRay bv with
  | some toi =>
      if (toi : WithTop Q) < s.earliestToi then
        match data with
        | some d =>
            if predicateFn d then
              (.Continue, ⟨(toi : WithTop Q), some bv, some d⟩)
            else
              (.Continue, s)
        | none => (.Continue, s)
      else
        (.Stop, s)
  | none => (.Stop, s)

/-- `BVH::visit` specialised to the nearest-ray-cast visitor: depth-first,
children in order, pruning a subtree when the visitor answers `Stop`. -/
def bvhVisitFrom {BV T Q : Type} [LinearOrder Q] (toiWithRay : BV → Option Q)
    (predicateFn : T → Bool) :
    BVTree BV T → NearestCastState BV T Q → NearestCastState BV T Q
  | .leaf bv d, s => (nearestVisit toiWithRay predicateFn bv (some d) s).2
  | .node bv l r, s =>
      match nearestVisit toiWithRay predicateFn bv none s with
      | (.Stop, s') => s'
      | (.Continue, s') =>
          bvhVisitFrom toiWithRay predicateFn r
            (bvhVisitFrom toiWithRay predicateFn l s')

/-- `NearestBVRayCastResult`. -/
structure NearestBVRayCastResult (T BV Q : Type) where
  data : T
  boundingVolume : BV
  toi : WithTop Q
deriving DecidableEq, Repr

/-- `nearest_bounding_volume_ray_cast` (lines 100–120 of `src/collision.rs`). -/
def nearestBoundingVolumeRayCast {BV T Q : Type} [LinearOrder Q]
    (bvh : BVTree BV T) (toiWithRay : BV → Option Q) (predicateFn : T → Bool) :
    Option (NearestBVRayCastResult T BV Q) :=
  let visitor := bvhVisitFrom toiWithRay predicateFn bvh (NearestCastState.init BV T Q)
  match visitor.nearestData, visitor.nearestBv with
  | some data, some boundingVolume => some ⟨data, boundingVolume, visitor.earliestToi⟩
  | _, _ => none

/-- The (ray-hit) times of impact of the leaves whose data passes the
predicate. -/
def predLeafTois {BV T Q : Type} (toiWithRay : BV → Option Q)
    (predicateFn : T → Bool) (t : BVTree BV T) : List Q :=
  t.leavesList.filterMap (fun bvd => if predicateFn bvd.2 then toiWithRay bvd.1 else none)

/-- Infimum of a time list, `⊤` when empty. -/
def infTois {Q : Type} [LinearOrder Q] (l : List Q) : WithTop Q :=
  l.foldr (fun t acc => min (t : WithTop Q) acc) ⊤

/-- The BVH containment property the DBVT maintains, phrased in terms of ray
casts: a subtree's root bound is hit no later than the bound below it.  A
sound BVH (parent bounds contain child bounds) satisfies this for every ray. -/
def coversB {BV T Q : Type} [LinearOrder Q] (toiWithRay : BV → Option Q)
    (parentBv : BV) (child : BVTree BV T) : Bool :=
  match toiWithRay child.rootBv with
  | none => true
  | some tc =>
      match toiWithRay parentBv with
      | none => false
      | some tp => decide (tp ≤ tc)

def wellBoundedB {BV T Q : Type} [LinearOrder Q] (toiWithRay : BV → Option Q) :
    BVTree BV T → Bool
  | .leaf _ _ => true
  | .node bv l r =>
      coversB toiWithRay bv l && coversB toiWithRay bv r &&
        wellBoundedB toiWithRay l && wellBoundedB toiWithRay r

/-! ## `finite_astar` (`src/finite_astar.rs`)

The search loop is embedded as a step function on its loop state.  The Rust
`BinaryHeap` is modelled as the list of its elements: `push` conses, and `pop`
removes a maximal element under `SmallestCostHolder`'s `Ord` (least
`estimated_cost`; ties broken toward greatest `cost`; further ties are
unspecified in `BinaryHeap`, the model takes the earliest pushed).  The
`IndexMap` is the list of its entries in insertion order, so `get_index` is
positional lookup and re-insertion keeps the index.  Node, cost and closure
parameters stay generic as in the Rust signature (`C: Zero + Ord + Copy` with
addition). -/

structure SmallestCostHolder (C : Type) where
  estimatedCost : C
  cost : C
  index : Nat
deriving DecidableEq, Repr

/-- `a` has priority over `b` in the max-heap, per `SmallestCostHolder`'s
`Ord` (reversed `estimated_cost`, then `cost`). -/
def holderBeats {C : Type} [LinearOrder C] (a b : SmallestCostHolder C) : Bool :=
  decide (a.estimatedCost < b.estimatedCost) ||
    (decide (a.estimatedCost = b.estimatedCost) && decide (b.cost < a.cost))

/-- `BinaryHeap::pop`: remove and return a maximal element. -/
def heapPop {C : Type} [LinearOrder C] :
    List (SmallestCostHolder C) →
      Option (SmallestCostHolder C × List (SmallestCostHolder C))
  | [] => none
  | hd :: tl =>
      let best := tl.foldl (fun b x => if holderBeats x b then x else b) hd
      some (best, (hd :: tl).erase best)

/-- `usize::max_value()`: the sentinel parent index of the start node. -/
def usizeMax : Nat := 2 ^ 64 - 1

/-- The `IndexMap<N, (usize, C)>` of parents: node, parent index, best cost. -/
abbrev Parents (N C : Type) := List (N × Nat × C)

/-- The index walk that `reverse_path`'s `itertools::unfold` performs: the
index reached after `n` parent-pointer hops from `i`, or `none` once a hop was
attempted from an out-of-bounds index (i.e. after the walk has left the
table).  The source walks this chain with no bound at all. -/
def walkIdx {N C : Type} (parents : Parents N C) : Nat → Nat → Option Nat
  | i, 0 => some i
  | i, n + 1 =>
      match parents.get? i with
      | none => none
      | some e => walkIdx parents e.2.1 n

/-- `reverse_path` (lines 131–145): follow parent indices from `start`,
collecting nodes; the accumulator prepends, which is the collected list
already reversed.  The source's `itertools::unfold` stops only when an index
goes out of bounds (the start entry's `usize::max_value()` parent) — if the
walk instead revisits an index it is periodic from there (each entry's parent
pointer is fixed while `reverse_path` runs) and the source loops forever,
which is reachable: negative move costs can re-point two entries at each
other.  The model runs the walk on `parents.length + 1` lookups of fuel and
returns `none` — divergence of the source — exactly when the fuel runs out;
`reversePath_isSome_iff` proves this coincides with the unbounded walk never
leaving the table. -/
def reversePathAux {N C : Type} (parents : Parents N C) :
    Nat → Nat → List N → Option (List N)
  | 0, _, _ => none
  | fuel + 1, i, acc =>
      match parents.get? i with
      | none => some acc
      | some (node, parentIdx, _) => reversePathAux parents fuel parentIdx (node :: acc)

def reversePath {N C : Type} (parents : Parents N C) (start : Nat) : Option (List N) :=
  reversePathAux parents (parents.length + 1) start []

/-- The loop state of `finite_astar` at the top of each `while let` iteration. -/
structure SearchState (N C : Type) where
  toSee : List (SmallestCostHolder C)
  parents : Parents N C
  numIters : Nat
  bestHeuristicSoFar : C
  bestCostSoFar : C
  bestIndexSoFar : Nat
deriving DecidableEq

/-- Push the successor's heap entry and track the best heuristic seen so far
(lines 78–88). -/
def pushAndTrackBest {N C : Type} [LinearOrder C]
    (hVal : C) (n : Nat) (newCost : C) (estimated : C) (s : SearchState N C) :
    SearchState N C :=
  let s' := { s with toSee := ⟨estimated, newCost, n⟩ :: s.toSee }
  if hVal < s'.bestHeuristicSoFar then
    { s' with bestHeuristicSoFar := hVal, bestIndexSoFar := n, bestCostSoFar := newCost }
  else
    s'

/-- The body of the `for (successor, move_cost) in successors` loop
(lines 57–89): `index`/`cost` are the expanded holder's fields. -/
def processSuccessor {N C : Type} [DecidableEq N] [LinearOrder C] [Add C]
    (heuristic : N → C) (index : Nat) (cost : C)
    (s : SearchState N C) (sc : N × C) : SearchState N C :=
  let newCost := cost + sc.2
  match s.parents.findIdx? (fun e => e.1 = sc.1) with
  | none =>
      -- Vacant entry: heuristic, fresh index, insert.
      let hVal := heuristic sc.1
      let n := s.parents.length
      pushAndTrackBest hVal n newCost (newCost + hVal)
        { s with parents := s.parents ++ [(sc.1, index, newCost)] }
  | some j =>
      match s.parents.get? j with
      | some entry =>
          if newCost < entry.2.2 then
            -- Occupied entry with improved cost: re-point and re-push.
            let hVal := heuristic sc.1
            pushAndTrackBest hVal j newCost (newCost + hVal)
              { s with parents := s.parents.set j (sc.1, index, newCost) }
          else
            s
      | none => s

/-- How a `finite_astar` call can end: a normal return `(reached, path,
cost)`, the `unwrap` panic on a heap index missing from `parents`
(unreachable from the initial state), or divergence inside `reverse_path`
when the recorded parent chain cycles. -/
inductive AstarOutcome (N C : Type) where
  | result (reached : Bool) (path : List N) (cost : C)
  | panicked
  | diverged
deriving DecidableEq

/-- A loop exit through `reverse_path`: the returned triple when the
parent-index walk leaves the table, `diverged` when it cycles and the source
never returns. -/
def astarReturn {N C : Type} (reached : Bool) (parents : Parents N C)
    (idx : Nat) (cost : C) : AstarOutcome N C :=
  match reversePath parents idx with
  | some path => .result reached path cost
  | none => .diverged

/-- One iteration of the `while let Some(..) = to_see.pop()` loop
(lines 42–95), together with the loop's exits: `Sum.inl` is a `return`/fallthrough
to lines 97–99, `Sum.inr` continues the loop. -/
def astarStep {N C : Type} [DecidableEq N] [LinearOrder C] [Add C]
    (successors : N → List (N × C)) (heuristic : N → C) (success : N → Bool)
    (maxIterations : Nat) (s : SearchState N C) :
    AstarOutcome N C ⊕ SearchState N C :=
  match heapPop s.toSee with
  | none =>
      -- Frontier exhausted: fall through to lines 97–99.
      .inl (astarReturn true s.parents s.bestIndexSoFar s.bestCostSoFar)
  | some (holder, rest) =>
      match s.parents.get? holder.index with
      | none => .inl .panicked
      | some (node, _, c) =>
          if success node then
            .inl (astarReturn true s.parents holder.index holder.cost)
          else if c < holder.cost then
            -- Stale heap entry (`cost > c`): discard without counting an iteration.
            .inr { s with toSee := rest }
          else
            let s1 := (successors node).foldl
              (processSuccessor heuristic holder.index holder.cost)
              { s with toSee := rest }
            let numIters' := s1.numIters + 1
            if numIters' = maxIterations then
              .inl (astarReturn true s1.parents s1.bestIndexSoFar s1.bestCostSoFar)
            else
              .inr { s1 with numIters := numIters' }

/-- The state right before the loop (lines 29–41). -/
def astarInit {N C : Type} [Zero C] (start : N) (heuristic : N → C) : SearchState N C :=
  let hStart := heuristic start
  { toSee := [⟨hStart, 0, 0⟩]
    parents := [(start, usizeMax, 0)]
    numIters := 0
    bestHeuristicSoFar := hStart
    bestCostSoFar := 0
    bestIndexSoFar := 0 }

/-- Iterate the loop from an arbitrary state; a produced outcome is absorbing. -/
def astarIterFrom {N C : Type} [DecidableEq N] [LinearOrder C] [Add C]
    (successors : N → List (N × C)) (heuristic : N → C) (success : N → Bool)
    (maxIterations : Nat) (s0 : SearchState N C) :
    Nat → AstarOutcome N C ⊕ SearchState N C
  | 0 => .inr s0
  | k + 1 =>
      match astarIterFrom successors heuristic success maxIterations s0 k with
      | .inl r => .inl r
      | .inr s => astarStep successors heuristic success maxIterations s

/-- `finite_astar`'s loop, iterated from the function's initial state. -/
def astarIter {N C : Type} [DecidableEq N] [LinearOrder C] [Zero C] [Add C]
    (start : N) (successors : N → List (N × C)) (heuristic : N → C)
    (success : N → Bool) (maxIterations : Nat) (k : Nat) :
    AstarOutcome N C ⊕ SearchState N C :=
  astarIterFrom successors heuristic success maxIterations
    (astarInit start heuristic) k

/-- The expansion counter of an in-flight loop state, `none` once the loop
has exited. -/
def numItersOfIter {N C : Type} : AstarOutcome N C ⊕ SearchState N C → Option Nat :=
  Sum.elim (fun _ => none) (fun s => some s.numIters)

/-! ## Concrete instances used by example conjuncts and bug evaluations -/

/-- The spec's example voxel content: a solid 3×3×3 cube (occupying
`[1,3]³`) surrounded by empty space. -/
def exampleCubeSource : VoxelSource := fun p =>
  decide (1 ≤ p.x ∧ p.x ≤ 3 ∧ 1 ≤ p.y ∧ p.y ≤ 3 ∧ 1 ≤ p.z ∧ p.z ≤ 3)

/-- A query extent holding the example cube with a one-voxel boundary. -/
def exampleCubeExtent : Extent3i := ⟨⟨0, 0, 0⟩, ⟨4, 4, 4⟩⟩

/-- Failing input for the `finite_astar` reached-flag evaluation: an isolated
start node. -/
def c1Successors : Int → List (Int × Int) := fun _ => []

def c1Heuristic : Int → Int := fun _ => 0

/-- A goal predicate no node ever satisfies. -/
def c1Success : Int → Bool := fun _ => false

/-- A small concrete BVH for the ray-cast witness: one internal node over two
leaves, labelled by bound ids. -/
def c6Tree : BVTree Nat Nat := .node 0 (.leaf 1 10) (.leaf 2 20)

/-- Ray-hit times for the witness tree's bounds: the root is hit at 1, leaf 1's
bound at 3, leaf 2's bound at 2. -/
def c6Toi : Nat → Option Int := fun bv =>
  if bv = 0 then some 1 else if bv = 1 then some 3 else some 2

/-- Failing input for the iteration cap: an infinite chain of successors. -/
def c8Successors : Int → List (Int × Int) := fun n => [(n + 1, 1)]

def c8Heuristic : Int → Int := fun _ => 0

def c8Success : Int → Bool := fun _ => false

/-- A negative-move-cost instance on which the source's `reverse_path`
cycles: expanding node 1 re-points entry 2's parent to 1, then expanding
node 2 re-points entry 1's parent to 2, and the best-heuristic index (1) sits
on that 1 → 2 → 1 parent cycle when the cap of 3 fires. -/
def c8CycleSuccessors : Int → List (Int × Int) := fun n =>
  if n = 0 then [(1, 2), (2, 1)]
  else if n = 1 then [(2, -10)]
  else if n = 2 then [(1, -100)]
  else []

def c8CycleHeuristic : Int → Int := fun n =>
  if n = 0 then 10 else if n = 1 then 5 else 6

/-! # Theorems -/

/-! ### Cache compressor (claim C4) -/

theorem compressLru_iterate (k : Nat) :
    ∀ st : CompressibleCacheState, k ≤ st.cached.length →
      compressLru^[k] st =
        ⟨st.cached.drop k, (st.cached.take k).reverse ++ st.compressed⟩ := by
  induction k with
  | zero => intro st _; simp
  | succ k ih =>
      intro st hk
      match hst : st.cached with
      | [] => rw [hst] at hk; simp at hk
      | c :: rest =>
          have hstep : compressLru st = ⟨rest, c :: st.compressed⟩ := by
            unfold compressLru; rw [hst]
          rw [Function.iterate_succ_apply, hstep, ih ⟨rest, c :: st.compressed⟩]
          · simp [hst, List.append_assoc]
          · rw [hst] at hk; simpa using hk

theorem compressorRun_closed (M cap : Nat) (st : CompressibleCacheState) :
    chunkCacheCompressorRun M cap st =
      ⟨st.cached.drop (min (st.cached.length - M) cap),
       (st.cached.take (min (st.cached.length - M) cap)).reverse ++ st.compressed⟩ := by
  have hk : (min (max ((st.lenCached : Int) - (M : Int)) 0) ((cap : Nat) : Int)).toNat
      = min (st.cached.length - M) cap := by
    unfold CompressibleCacheState.lenCached
    omega
  unfold chunkCacheCompressorRun
  dsimp only
  rw [hk]
  exact compressLru_iterate _ st (by omega)

theorem compressorRun_len (M cap : Nat) (st : CompressibleCacheState) :
    (chunkCacheCompressorRun M cap st).lenCached
      = max (st.lenCached - cap) (min st.lenCached M) := by
  rw [compressorRun_closed]
  unfold CompressibleCacheState.lenCached
  simp only [List.length_drop]
  omega

theorem compressorRun_iter_len (M cap : Nat) (m : Nat) :
    ∀ st : CompressibleCacheState,
      ((chunkCacheCompressorRun M cap)^[m] st).lenCached
        = max (st.lenCached - m * cap) (min st.lenCached M) := by
  induction m with
  | zero => intro st; simp
  | succ m ih =>
      intro st
      rw [Function.iterate_succ_apply, ih, compressorRun_len]
      have hmul : (m + 1) * cap = m * cap + cap := by ring
      rw [hmul]
      generalize m * cap = t
      omega

/-- **C4**: one compressor run compresses exactly
`min (max (live - max_cached_chunks) 0) max_compressed_per_tick` chunks, taken
from the least-recently-used end of the live cache, and iterating the run
drives the live chunk count down to — and never below — the
`max_cached_chunks` budget. -/
theorem cache_compressor_budget (M cap : Nat) (st : CompressibleCacheState) :
    ((chunkCacheCompressorRun M cap st).cached
        = st.cached.drop (min (st.lenCached - M) cap)
      ∧ (chunkCacheCompressorRun M cap st).compressed
        = (st.cached.take (min (st.lenCached - M) cap)).reverse ++ st.compressed
      ∧ (chunkCacheCompressorRun M cap st).lenCached
        = st.lenCached - min (st.lenCached - M) cap)
    ∧ (∀ m : Nat, ((chunkCacheCompressorRun M cap)^[m] st).lenCached
        = max (st.lenCached - m * cap) (min st.lenCached M))
    ∧ (∀ m : Nat, min st.lenCached M ≤ ((chunkCacheCompressorRun M cap)^[m] st).lenCached) := by
  refine ⟨⟨?_, ?_, ?_⟩, fun m => compressorRun_iter_len M cap m st, fun m => ?_⟩
  · rw [compressorRun_closed]; rfl
  · rw [compressorRun_closed]; rfl
  · rw [compressorRun_closed]
    unfold CompressibleCacheState.lenCached
    simp only [List.length_drop]
  · rw [compressorRun_iter_len]
    omega

/-! ### `extreme_ball_voxel_impact` (claim C7) -/

theorem impact_fold_aux {P IMPACT : Type} (toiFn : P → Option IMPACT)
    (cmpFn : IMPACT → IMPACT → IMPACT) (predicateFn : IMPACT → Bool) :
    ∀ (pts : List P) (acc : Option IMPACT),
      pts.foldl
        (fun maybeBestImpact p =>
          match toiFn p with
          | some impact =>
              if !predicateFn impact then
                maybeBestImpact
              else
                match maybeBestImpact with
                | some bestImpact => some (cmpFn impact bestImpact)
                | none => some impact
          | none => maybeBestImpact) acc
      = (validImpacts pts toiFn predicateFn).foldl
          (fun acc i =>
            match acc with
            | some b => some (cmpFn i b)
            | none => some i) acc := by
  intro pts
  induction pts with
  | nil => intro acc; rfl
  | cons p t ih =>
      intro acc
      simp only [List.foldl_cons]
      cases htoi : toiFn p with
      | none =>
          have hv : validImpacts (p :: t) toiFn predicateFn
              = validImpacts t toiFn predicateFn := by
            unfold validImpacts
            simp [List.filterMap_cons, htoi]
          rw [hv, ← ih]
      | some i =>
          cases hpred : predicateFn i with
          | false =>
              have hv : validImpacts (p :: t) toiFn predicateFn
                  = validImpacts t toiFn predicateFn := by
                unfold validImpacts
                simp [List.filterMap_cons, htoi, hpred]
              rw [hv, ← ih]
              simp [htoi, hpred]
          | true =>
              have hv : validImpacts (p :: t) toiFn predicateFn
                  = i :: validImpacts t toiFn predicateFn := by
                unfold validImpacts
                simp [List.filterMap_cons, htoi, hpred]
              rw [hv]
              simp only [List.foldl_cons]
              rw [← ih]
              cases acc <;> simp [htoi, hpred]

theorem selectImpact_fold_some {IMPACT : Type} (cmpFn : IMPACT → IMPACT → IMPACT) :
    ∀ (l : List IMPACT) (a : IMPACT), ∃ b,
      l.foldl (fun acc i =>
        match acc with
        | some b => some (cmpFn i b)
        | none => some i) (some a) = some b := by
  intro l
  induction l with
  | nil => exact fun a => ⟨a, rfl⟩
  | cons i t ih => intro a; simpa using ih (cmpFn i a)

theorem selectImpact_eq_none_iff {IMPACT : Type} (cmpFn : IMPACT → IMPACT → IMPACT)
    (l : List IMPACT) : selectImpact cmpFn l = none ↔ l = [] := by
  cases l with
  | nil => simp [selectImpact]
  | cons i t =>
      simp only [selectImpact, List.foldl_cons]
      obtain ⟨b, hb⟩ := selectImpact_fold_some cmpFn t i
      simp only [hb]
      simp

theorem selectImpact_fold_mem {IMPACT : Type} (cmpFn : IMPACT → IMPACT → IMPACT)
    (hc : ∀ a b, cmpFn a b = a ∨ cmpFn a b = b) :
    ∀ (l : List IMPACT) (acc : Option IMPACT) (i : IMPACT),
      l.foldl (fun acc i =>
        match acc with
        | some b => some (cmpFn i b)
        | none => some i) acc = some i → i ∈ l ∨ acc = some i := by
  intro l
  induction l with
  | nil => intro acc i h; exact Or.inr h
  | cons x t ih =>
      intro acc i h
      simp only [List.foldl_cons] at h
      rcases ih _ i h with hmem | hacc
      · exact Or.inl (List.mem_cons_of_mem x hmem)
      · cases acc with
        | none =>
            simp only [Option.some.injEq] at hacc
            exact Or.inl (hacc ▸ List.mem_cons_self x t)
        | some a =>
            simp only [Option.some.injEq] at hacc
            rcases hc x a with h1 | h2
            · exact Or.inl (by rw [← hacc, h1]; exact List.mem_cons_self x t)
            · exact Or.inr (by rw [← hacc, h2])

/-- **C7**: the swept-sphere query returns `none` exactly when the endpoints
coincide or no candidate voxel both yields a time of impact and passes the
caller predicate; otherwise it reduces the valid candidates with the
comparator, and (whenever the comparator picks one of its arguments) the
returned impact is one of the valid candidates. -/
theorem extreme_ball_impact_contract {P IMPACT : Type} [DecidableEq P]
    (startPos endPos : P) (pts : List P) (toiFn : P → Option IMPACT)
    (cmpFn : IMPACT → IMPACT → IMPACT) (predicateFn : IMPACT → Bool) :
    (extremeBallVoxelImpact startPos endPos pts toiFn cmpFn predicateFn
        = if startPos = endPos then none
          else selectImpact cmpFn (validImpacts pts toiFn predicateFn))
    ∧ (extremeBallVoxelImpact startPos endPos pts toiFn cmpFn predicateFn = none
        ↔ startPos = endPos ∨ validImpacts pts toiFn predicateFn = [])
    ∧ ((∀ a b, cmpFn a b = a ∨ cmpFn a b = b) →
        ∀ i, extremeBallVoxelImpact startPos endPos pts toiFn cmpFn predicateFn = some i →
          i ∈ validImpacts pts toiFn predicateFn) := by
  have heq : extremeBallVoxelImpact startPos endPos pts toiFn cmpFn predicateFn
      = if startPos = endPos then none
        else selectImpact cmpFn (validImpacts pts toiFn predicateFn) := by
    unfold extremeBallVoxelImpact
    by_cases hse : startPos = endPos
    · simp [hse]
    · simp only [hse, if_false]
      exact impact_fold_aux toiFn cmpFn predicateFn pts none
  refine ⟨heq, ?_, ?_⟩
  · rw [heq]
    by_cases hse : startPos = endPos
    · simp [hse]
    · simp [hse, selectImpact_eq_none_iff]
  · intro hc i hi
    rw [heq] at hi
    by_cases hse : startPos = endPos
    · simp [hse] at hi
    · simp only [hse, if_false] at hi
      rcases selectImpact_fold_mem cmpFn hc _ none i hi with hmem | habs
      · exact hmem
      · exact absurd habs (by simp)

/-- Witness for C7 at a concrete input: candidates `[5, 6]`, of which only
voxel `5` yields an impact (time 3) and passes the predicate, reduced by
`min`. -/
theorem extreme_ball_impact_contract_witness :
    (∀ a b : Int, min a b = a ∨ min a b = b)
    ∧ extremeBallVoxelImpact (0 : Nat) 1 [5, 6]
        (fun p => if p = 5 then some (3 : Int) else none) min (fun _ => true) = some 3
    ∧ (3 : Int) ∈ validImpacts [5, 6]
        (fun p => if p = 5 then some (3 : Int) else none) (fun _ => true) :=
  ⟨fun a b => min_choice a b,
   by decide,
   (extreme_ball_impact_contract (0 : Nat) 1 [5, 6]
       (fun p => if p = 5 then some (3 : Int) else none) min (fun _ => true)).2.2
     (fun a b => min_choice a b) 3 (by decide)⟩

/-! ### `generate_chunk_bvt` (claim C5) -/

theorem mem_intRange {lo hi a : Int} : a ∈ intRange lo hi ↔ lo ≤ a ∧ a ≤ hi := by
  unfold intRange
  rw [List.mem_map]
  constructor
  · rintro ⟨i, hmem, rfl⟩
    rw [List.mem_range] at hmem
    omega
  · rintro ⟨h1, h2⟩
    refine ⟨(a - lo).toNat, ?_, ?_⟩
    · rw [List.mem_range]; omega
    · omega

theorem mem_points {e : Extent3i} {p : Point3} :
    p ∈ e.points ↔ e.containsPoint p := by
  unfold Extent3i.points Extent3i.containsPoint
  simp only [List.mem_flatMap, List.mem_map, mem_intRange]
  constructor
  · rintro ⟨px, ⟨hx1, hx2⟩, py, ⟨hy1, hy2⟩, pz, ⟨hz1, hz2⟩, rfl⟩
    exact ⟨hx1, hx2, hy1, hy2, hz1, hz2⟩
  · rintro ⟨hx1, hx2, hy1, hy2, hz1, hz2⟩
    exact ⟨p.x, ⟨hx1, hx2⟩, p.y, ⟨hy1, hy2⟩, p.z, ⟨hz1, hz2⟩, rfl⟩

/-- **C5**: `generate_chunk_bvt` returns `None` exactly when the extent holds
no surface voxel (non-empty voxel with an empty face neighbor), and otherwise
one leaf per surface voxel, bounded by that voxel's unit AABB; on the spec's
solid 3×3×3 example cube the leaf count is exactly the 26 boundary-shell
voxels. -/
theorem generate_chunk_bvt_surface (nonEmpty : VoxelSource) (extent : Extent3i) :
    (generateChunkBvt nonEmpty extent = none
        ↔ findSurfaceVoxels nonEmpty extent = [])
    ∧ (∀ bvt, generateChunkBvt nonEmpty extent = some bvt →
        bvt.leaves = (findSurfaceVoxels nonEmpty extent).map (fun p => (voxelAabb p, p)))
    ∧ (∀ p, p ∈ findSurfaceVoxels nonEmpty extent ↔
        extent.containsPoint p ∧ nonEmpty p = true ∧
          ∃ off ∈ faceAdjacentOffsets, nonEmpty (p + off) = false)
    ∧ ((generateChunkBvt exampleCubeSource exampleCubeExtent).map
        (fun b => b.leaves.length) = some 26) := by
  refine ⟨?_, ?_, ?_, by decide⟩
  · cases hfs : findSurfaceVoxels nonEmpty extent with
    | nil => simp [generateChunkBvt, hfs]
    | cons a t => simp [generateChunkBvt, hfs]
  · intro bvt h
    cases hfs : findSurfaceVoxels nonEmpty extent with
    | nil => simp [generateChunkBvt, hfs] at h
    | cons a t =>
        simp only [generateChunkBvt, hfs] at h
        simp only [List.isEmpty_cons, if_false, Bool.false_eq_true, Option.some.injEq] at h
        rw [← h]
  · intro p
    unfold findSurfaceVoxels
    simp only [List.mem_filter, mem_points, Bool.and_eq_true, List.any_eq_true,
      Bool.not_eq_true']

/-! ### `finite_astar` reached flag (claim C1) and iteration cap (claim C8) -/

/-- **C1** (evaluation of the code at the failing input): searching from an
isolated start node whose goal predicate is never satisfied exhausts the
frontier after one expansion, and `finite_astar` then returns the partial path
`[start]` with the reached flag `true` — although the goal was never reached.
This contradicts the function's own doc comment ("Returns `true` iff the path
reaches the success condition") and the spec's `reached_goal = false`
contract: line 99 of `src/finite_astar.rs` returns `true` unconditionally. -/
theorem finite_astar_true_flag_on_exhaustion :
    (∀ n : Int, c1Success n = false)
    ∧ astarIter (0 : Int) c1Successors c1Heuristic c1Success 5 2
        = Sum.inl (AstarOutcome.result true [0] 0) :=
  ⟨fun _ => rfl, by decide⟩

/-- **C8** (counterexample): with `max_iterations = 0` and an infinite
successor chain, one loop step already performs one expansion (the
`num_iters == max_iterations` test is checked only after incrementing, and
`1 ≠ 0`), so the search does not perform "at most N node expansions" for the
cap `N = 0` — and it keeps running (`Sum.inr`). -/
theorem bounded_search_cap_zero_counterexample :
    numItersOfIter (astarIter (0 : Int) c8Successors c8Heuristic c8Success 0 1) = some 1
    ∧ ¬(1 ≤ (0 : Nat)) :=
  ⟨by decide, by decide⟩

/-! ### Staging isolation (claim C2) -/

theorem stageEdits_map_eq (edits : List (Extent3i × EditFunc)) :
    ∀ w : WorldState, (stageEdits w edits).map = w.map := by
  induction edits with
  | nil => intro w; rfl
  | cons e es ih => intro w; exact ih (stageEdit w e.1 e.2)

/-- **C2**: any number of staged edits write only into the backbuffer: the
authoritative `VoxelMap` is untouched, so every point of the grid still reads
its pre-edit value until the merge system runs. -/
theorem staged_edits_leave_map_unchanged (w : WorldState)
    (edits : List (Extent3i × EditFunc)) (p : Point3) :
    (stageEdits w edits).map = w.map
    ∧ voxelAt (stageEdits w edits).map p = voxelAt w.map p := by
  refine ⟨stageEdits_map_eq edits w, ?_⟩
  rw [stageEdits_map_eq]

/-! ### Association-list and staging lemmas (claims C3, C9, C10) -/

theorem alGet_append (m1 m2 : ChunkAList) (k : Point3) :
    alGet (m1 ++ m2) k = match alGet m1 k with
      | some v => some v
      | none => alGet m2 k := by
  induction m1 with
  | nil => rfl
  | cons e rest ih =>
      by_cases he : e.1 = k
      · simp [alGet, he]
      · simp [alGet, he, ih]

theorem alGet_isSome_iff_mem (m : ChunkAList) (k : Point3) :
    (alGet m k).isSome ↔ k ∈ alKeys m := by
  induction m with
  | nil => simp [alGet, alKeys]
  | cons e rest ih =>
      by_cases he : e.1 = k
      · simp [alGet, alKeys, he]
      · simp only [alGet, alKeys, List.map_cons, List.mem_cons, if_neg he]
        rw [ih]
        unfold alKeys
        constructor
        · exact fun h => Or.inr h
        · rintro (h | h)
          · exact absurd h.symm he
          · exact h

theorem alKeys_append (m1 m2 : ChunkAList) :
    alKeys (m1 ++ m2) = alKeys m1 ++ alKeys m2 := by
  unfold alKeys
  simp

theorem alGet_alSet_self (m : ChunkAList) (k : Point3) (v : MaybeCompressed)
    (h : (alGet m k).isSome) : alGet (alSet m k v) k = some v := by
  induction m with
  | nil => simp [alGet] at h
  | cons e rest ih =>
      by_cases he : e.1 = k
      · simp [alSet, alGet, he]
      · rw [alGet, if_neg he] at h
        simp only [alSet, List.map_cons, if_neg he]
        rw [alGet, if_neg he]
        · exact ih h

theorem alGet_alSet_ne (m : ChunkAList) (k k' : Point3) (v : MaybeCompressed)
    (h : k ≠ k') : alGet (alSet m k v) k' = alGet m k' := by
  induction m with
  | nil => rfl
  | cons e rest ih =>
      by_cases he : e.1 = k
      · simp only [alSet, List.map_cons, if_pos he]
        rw [alGet, alGet, if_neg h, if_neg (he ▸ h)]
        exact ih
      · simp only [alSet, List.map_cons, if_neg he]
        by_cases he' : e.1 = k'
        · rw [alGet, alGet, if_pos he', if_pos he']
        · rw [alGet, alGet, if_neg he', if_neg he']
          exact ih

theorem alKeys_alSet (m : ChunkAList) (k : Point3) (v : MaybeCompressed) :
    alKeys (alSet m k v) = alKeys m := by
  induction m with
  | nil => rfl
  | cons e rest ih =>
      by_cases he : e.1 = k
      · simp only [alSet, List.map_cons, if_pos he]
        unfold alKeys at ih ⊢
        simp only [List.map_cons, he]
        rw [← ih]
        rfl
      · simp only [alSet, List.map_cons, if_neg he]
        unfold alKeys at ih ⊢
        simp only [List.map_cons]
        rw [← ih]
        rfl

theorem alGet_alSet_isSome (m : ChunkAList) (k k' : Point3) (v : MaybeCompressed) :
    (alGet (alSet m k v) k').isSome ↔ (alGet m k').isSome := by
  rw [alGet_isSome_iff_mem, alGet_isSome_iff_mem, alKeys_alSet]

theorem alGetOrInsertWith_of_isSome {m : ChunkAList} {k : Point3}
    (h : (alGet m k).isSome) (c : Chunk3) : alGetOrInsertWith m k c = m := by
  unfold alGetOrInsertWith
  cases hg : alGet m k with
  | none => rw [hg] at h; simp at h
  | some v => rfl

theorem alGet_alGetOrInsertWith_self (m : ChunkAList) (k : Point3) (c : Chunk3) :
    alGet (alGetOrInsertWith m k c) k
      = some ((alGet m k).getD (.decompressed c)) := by
  unfold alGetOrInsertWith
  cases hg : alGet m k with
  | some v => rw [hg]; rfl
  | none =>
      rw [alGet_append, hg]
      simp [alGet]

theorem alGet_alGetOrInsertWith_ne (m : ChunkAList) (k k' : Point3) (c : Chunk3)
    (h : k ≠ k') : alGet (alGetOrInsertWith m k c) k' = alGet m k' := by
  unfold alGetOrInsertWith
  cases hg : alGet m k with
  | some v => rfl
  | none =>
      rw [alGet_append]
      cases hg' : alGet m k' with
      | some w => rfl
      | none => simp [alGet, h]

theorem alGet_alGetOrInsertWith_isSome (m : ChunkAList) (k k' : Point3) (c : Chunk3)
    (h : (alGet m k').isSome) : (alGet (alGetOrInsertWith m k c) k').isSome := by
  by_cases hk : k = k'
  · subst hk
    rw [alGet_alGetOrInsertWith_self]
    rfl
  · rw [alGet_alGetOrInsertWith_ne m k k' c hk]
    exact h

theorem alKeys_alGetOrInsertWith (m : ChunkAList) (k : Point3) (c : Chunk3) :
    alKeys (alGetOrInsertWith m k c)
      = if (alGet m k).isSome then alKeys m else alKeys m ++ [k] := by
  unfold alGetOrInsertWith
  cases hg : alGet m k with
  | some v => simp
  | none => simp [alKeys_append, alKeys]

theorem foldl_getOrInsert_get_of_isSome (fresh : Point3 → Chunk3) (L : List Point3) :
    ∀ (m : ChunkAList) (k : Point3), (alGet m k).isSome →
      alGet (L.foldl (fun acc ck => alGetOrInsertWith acc ck (fresh ck)) m) k
        = alGet m k := by
  induction L with
  | nil => intro m k _; rfl
  | cons k0 t ih =>
      intro m k h
      simp only [List.foldl_cons]
      by_cases hk : k0 = k
      · subst hk
        rw [alGetOrInsertWith_of_isSome h]
        exact ih m k0 h
      · rw [ih _ k (alGet_alGetOrInsertWith_isSome m k0 k _ h),
          alGet_alGetOrInsertWith_ne m k0 k _ hk]

theorem foldl_getOrInsert_isSome (fresh : Point3 → Chunk3) (L : List Point3) :
    ∀ (m : ChunkAList) (k : Point3), (alGet m k).isSome →
      (alGet (L.foldl (fun acc ck => alGetOrInsertWith acc ck (fresh ck)) m) k).isSome := by
  intro m k h
  rw [foldl_getOrInsert_get_of_isSome fresh L m k h]
  exact h

theorem foldl_getOrInsert_isSome_of_mem (fresh : Point3 → Chunk3) (L : List Point3) :
    ∀ (m : ChunkAList) (k : Point3), k ∈ L →
      (alGet (L.foldl (fun acc ck => alGetOrInsertWith acc ck (fresh ck)) m) k).isSome := by
  induction L with
  | nil => intro m k h; simp at h
  | cons k0 t ih =>
      intro m k h
      simp only [List.foldl_cons]
      by_cases hk : k = k0
      · subst hk
        exact foldl_getOrInsert_isSome fresh t _ k
          (by rw [alGet_alGetOrInsertWith_self]; rfl)
      · rcases List.mem_cons.mp h with h0 | h0
        · exact absurd h0 hk
        · exact ih _ k h0

theorem foldl_getOrInsert_eq_of_all_present (fresh : Point3 → Chunk3) (L : List Point3) :
    ∀ m : ChunkAList, (∀ k ∈ L, (alGet m k).isSome) →
      L.foldl (fun acc ck => alGetOrInsertWith acc ck (fresh ck)) m = m := by
  induction L with
  | nil => intro m _; rfl
  | cons k0 t ih =>
      intro m h
      simp only [List.foldl_cons]
      rw [alGetOrInsertWith_of_isSome (h k0 (List.mem_cons_self k0 t))]
      exact ih m (fun k hk => h k (List.mem_cons_of_mem k0 hk))

theorem mem_alKeys_foldl_getOrInsert (fresh : Point3 → Chunk3) (L : List Point3) :
    ∀ (m : ChunkAList) (k : Point3),
      k ∈ alKeys (L.foldl (fun acc ck => alGetOrInsertWith acc ck (fresh ck)) m) →
        k ∈ alKeys m ∨ k ∈ L := by
  induction L with
  | nil => intro m k h; exact Or.inl h
  | cons k0 t ih =>
      intro m k h
      simp only [List.foldl_cons] at h
      rcases ih _ k h with h0 | h0
      · rw [alKeys_alGetOrInsertWith] at h0
        by_cases hp : (alGet m k0).isSome
        · rw [if_pos hp] at h0
          exact Or.inl h0
        · rw [if_neg hp] at h0
          rcases List.mem_append.mp h0 with h1 | h1
          · exact Or.inl h1
          · simp only [List.mem_singleton] at h1
            exact Or.inr (h1 ▸ List.mem_cons_self k0 t)
      · exact Or.inr (List.mem_cons_of_mem k0 h0)

theorem chunkKeyContaining_congr {q p : Point3} (h : q = p) :
    chunkKeyContaining q = chunkKeyContaining p := by rw [h]

theorem chunkWriteAt_of_some (m : ChunkAList) (f : EditFunc) (p : Point3)
    (mc : MaybeCompressed) (hg : alGet m (chunkKeyContaining p) = some mc) :
    chunkWriteAt m f p
      = alSet m (chunkKeyContaining p) (.decompressed
          ⟨fun q => if q = p then f p (mc.chunk.array p) else mc.chunk.array q⟩) := by
  unfold chunkWriteAt
  dsimp only
  rw [hg]

theorem chunkWriteAt_of_none (m : ChunkAList) (f : EditFunc) (p : Point3)
    (hg : alGet m (chunkKeyContaining p) = none) :
    chunkWriteAt m f p
      = m ++ [(chunkKeyContaining p, .decompressed
          ⟨fun q => if q = p then f p EMPTY_VOXEL else EMPTY_VOXEL⟩)] := by
  unfold chunkWriteAt
  dsimp only
  rw [hg]

theorem alRead_chunkWriteAt (m : ChunkAList) (f : EditFunc) (p q : Point3) :
    alRead (chunkWriteAt m f p) q
      = if q = p then f p (alRead m p) else alRead m q := by
  by_cases hkey : chunkKeyContaining q = chunkKeyContaining p
  · cases hg : alGet m (chunkKeyContaining p) with
    | some mc =>
        have hs : (alGet m (chunkKeyContaining p)).isSome := by rw [hg]; rfl
        rw [chunkWriteAt_of_some m f p mc hg]
        unfold alRead
        rw [hkey, alGet_alSet_self _ _ _ hs, hg]
        by_cases hq : q = p <;> simp [hq, MaybeCompressed.chunk]
    | none =>
        rw [chunkWriteAt_of_none m f p hg]
        unfold alRead
        rw [hkey, alGet_append, hg]
        simp only [alGet, if_pos rfl]
        by_cases hq : q = p <;> simp [hq, MaybeCompressed.chunk]
  · have hq : q ≠ p := fun h => hkey (chunkKeyContaining_congr h)
    rw [if_neg hq]
    cases hg : alGet m (chunkKeyContaining p) with
    | some mc =>
        rw [chunkWriteAt_of_some m f p mc hg]
        unfold alRead
        rw [alGet_alSet_ne _ _ _ _ (fun h => hkey h.symm)]
    | none =>
        rw [chunkWriteAt_of_none m f p hg]
        unfold alRead
        rw [alGet_append]
        cases hg' : alGet m (chunkKeyContaining q) with
        | some w => rfl
        | none =>
            have hne : ¬(chunkKeyContaining p = chunkKeyContaining q) :=
              fun h => hkey h.symm
            simp [alGet, hne]

theorem alGet_chunkWriteAt_isSome_of_isSome (m : ChunkAList) (f : EditFunc)
    (p k : Point3) (h : (alGet m k).isSome) :
    (alGet (chunkWriteAt m f p) k).isSome := by
  cases hg : alGet m (chunkKeyContaining p) with
  | some mc =>
      rw [chunkWriteAt_of_some m f p mc hg, alGet_alSet_isSome]
      exact h
  | none =>
      rw [chunkWriteAt_of_none m f p hg, alGet_isSome_iff_mem, alKeys_append,
        List.mem_append]
      exact Or.inl ((alGet_isSome_iff_mem m k).mp h)

theorem alKeys_chunkWriteAt_of_present (m : ChunkAList) (f : EditFunc) (p : Point3)
    (h : (alGet m (chunkKeyContaining p)).isSome) :
    alKeys (chunkWriteAt m f p) = alKeys m := by
  cases hg : alGet m (chunkKeyContaining p) with
  | some mc => rw [chunkWriteAt_of_some m f p mc hg]; exact alKeys_alSet m _ _
  | none => rw [hg] at h; simp at h

theorem mem_alKeys_chunkWriteAt (m : ChunkAList) (f : EditFunc) (p k : Point3)
    (h : k ∈ alKeys (chunkWriteAt m f p)) :
    k ∈ alKeys m ∨ k = chunkKeyContaining p := by
  cases hg : alGet m (chunkKeyContaining p) with
  | some mc =>
      rw [chunkWriteAt_of_some m f p mc hg, alKeys_alSet] at h
      exact Or.inl h
  | none =>
      rw [chunkWriteAt_of_none m f p hg, alKeys_append] at h
      rcases List.mem_append.mp h with h0 | h0
      · exact Or.inl h0
      · simp only [alKeys, List.map_cons, List.map_nil, List.mem_singleton] at h0
        exact Or.inr h0

theorem alRead_foldl_chunkWriteAt_idem (f : EditFunc)
    (hf : ∀ p v, f p (f p v) = f p v) (L : List Point3) :
    ∀ (m : ChunkAList) (q : Point3),
      alRead (L.foldl (fun acc p => chunkWriteAt acc f p) m) q
        = if q ∈ L then f q (alRead m q) else alRead m q := by
  induction L with
  | nil => intro m q; simp
  | cons p t ih =>
      intro m q
      simp only [List.foldl_cons]
      rw [ih]
      simp only [alRead_chunkWriteAt]
      by_cases hq : q = p
      · subst hq
        by_cases hqt : q ∈ t
        · simp [hqt, hf]
        · simp [hqt]
      · by_cases hqt : q ∈ t
        · simp [hq, hqt]
        · simp [hq, hqt]

theorem alGet_foldl_chunkWriteAt_isSome (f : EditFunc) (L : List Point3) :
    ∀ (m : ChunkAList) (k : Point3), (alGet m k).isSome →
      (alGet (L.foldl (fun acc p => chunkWriteAt acc f p) m) k).isSome := by
  induction L with
  | nil => intro m k h; exact h
  | cons p t ih =>
      intro m k h
      simp only [List.foldl_cons]
      exact ih _ k (alGet_chunkWriteAt_isSome_of_isSome m f p k h)

theorem alKeys_foldl_chunkWriteAt (f : EditFunc) (L : List Point3) :
    ∀ m : ChunkAList, (∀ p ∈ L, (alGet m (chunkKeyContaining p)).isSome) →
      alKeys (L.foldl (fun acc p => chunkWriteAt acc f p) m) = alKeys m := by
  induction L with
  | nil => intro m _; rfl
  | cons p t ih =>
      intro m h
      simp only [List.foldl_cons]
      rw [ih _ (fun p' hp' =>
          alGet_chunkWriteAt_isSome_of_isSome m f p _
            (h p' (List.mem_cons_of_mem p hp'))),
        alKeys_chunkWriteAt_of_present m f p (h p (List.mem_cons_self p t))]

theorem mem_alKeys_foldl_chunkWriteAt (f : EditFunc) (L : List Point3) :
    ∀ (m : ChunkAList) (k : Point3),
      k ∈ alKeys (L.foldl (fun acc p => chunkWriteAt acc f p) m) →
        k ∈ alKeys m ∨ ∃ p ∈ L, k = chunkKeyContaining p := by
  induction L with
  | nil => intro m k h; exact Or.inl h
  | cons p t ih =>
      intro m k h
      simp only [List.foldl_cons] at h
      rcases ih _ k h with h0 | ⟨p', hp', hk⟩
      · rcases mem_alKeys_chunkWriteAt m f p k h0 with h1 | h1
        · exact Or.inl h1
        · exact Or.inr ⟨p, List.mem_cons_self p t, h1⟩
      · exact Or.inr ⟨p', List.mem_cons_of_mem p hp', hk⟩

theorem mem_hsInsert (s : List Point3) (k a : Point3) :
    a ∈ hsInsert s k ↔ a ∈ s ∨ a = k := by
  unfold hsInsert
  by_cases hk : k ∈ s
  · simp only [if_pos hk]
    constructor
    · exact Or.inl
    · rintro (h | rfl)
      · exact h
      · exact hk
  · simp [if_neg hk, List.mem_append]

theorem mem_foldl_hsInsert (L : List Point3) :
    ∀ (s : List Point3) (a : Point3),
      a ∈ L.foldl hsInsert s ↔ a ∈ s ∨ a ∈ L := by
  induction L with
  | nil => intro s a; simp
  | cons k t ih =>
      intro s a
      simp only [List.foldl_cons]
      rw [ih, mem_hsInsert, List.mem_cons]
      tauto

theorem foldl_hsInsert_eq_of_all_mem (L : List Point3) :
    ∀ s : List Point3, (∀ k ∈ L, k ∈ s) → L.foldl hsInsert s = s := by
  induction L with
  | nil => intro s _; rfl
  | cons k t ih =>
      intro s h
      simp only [List.foldl_cons]
      rw [show hsInsert s k = s by unfold hsInsert; rw [if_pos (h k (List.mem_cons_self k t))]]
      exact ih s (fun k' hk' => h k' (List.mem_cons_of_mem k hk'))

theorem point_add_x (a b : Point3) : (a + b).x = a.x + b.x := rfl

theorem point_add_y (a b : Point3) : (a + b).y = a.y + b.y := rfl

theorem point_add_z (a b : Point3) : (a + b).z = a.z + b.z := rfl

theorem point_sub_x (a b : Point3) : (a - b).x = a.x - b.x := rfl

theorem point_sub_y (a b : Point3) : (a - b).y = a.y - b.y := rfl

theorem point_sub_z (a b : Point3) : (a - b).z = a.z - b.z := rfl

theorem mem_chunkKeysForExtent {e : Extent3i} {k : Point3} :
    k ∈ chunkKeysForExtent e ↔
      (k.x = 16 * (k.x / 16) ∧ k.y = 16 * (k.y / 16) ∧ k.z = 16 * (k.z / 16))
      ∧ (e.minimum.x / 16 ≤ k.x / 16 ∧ k.x / 16 ≤ e.maximum.x / 16)
      ∧ (e.minimum.y / 16 ≤ k.y / 16 ∧ k.y / 16 ≤ e.maximum.y / 16)
      ∧ (e.minimum.z / 16 ≤ k.z / 16 ∧ k.z / 16 ≤ e.maximum.z / 16) := by
  unfold chunkKeysForExtent
  simp only [List.mem_flatMap, List.mem_map, mem_intRange]
  constructor
  · rintro ⟨kx, ⟨h1, h2⟩, ky, ⟨h3, h4⟩, kz, ⟨h5, h6⟩, rfl⟩
    dsimp only
    exact ⟨⟨by omega, by omega, by omega⟩, ⟨by omega, by omega⟩,
      ⟨by omega, by omega⟩, ⟨by omega, by omega⟩⟩
  · rintro ⟨⟨ha1, ha2, ha3⟩, ⟨hb1, hb2⟩, ⟨hc1, hc2⟩, ⟨hd1, hd2⟩⟩
    refine ⟨k.x / 16, ⟨hb1, hb2⟩, k.y / 16, ⟨hc1, hc2⟩, k.z / 16, ⟨hd1, hd2⟩, ?_⟩
    cases k with
    | mk x y z =>
        dsimp only at ha1 ha2 ha3 ⊢
        rw [Point3.mk.injEq]
        omega

theorem chunkKey_mem_keysForExtent {e : Extent3i} {p : Point3}
    (h : e.containsPoint p) : chunkKeyContaining p ∈ chunkKeysForExtent e := by
  rw [mem_chunkKeysForExtent]
  obtain ⟨hx1, hx2, hy1, hy2, hz1, hz2⟩ := h
  unfold chunkKeyContaining
  dsimp only
  exact ⟨⟨by omega, by omega, by omega⟩, ⟨by omega, by omega⟩,
    ⟨by omega, by omega⟩, ⟨by omega, by omega⟩⟩

theorem keysForExtent_subset_expanded {e : Extent3i} {k : Point3}
    (h : k ∈ chunkKeysForExtent e) :
    k ∈ chunkKeysForExtent (extentWithNeighborChunks e) := by
  rw [mem_chunkKeysForExtent] at h ⊢
  obtain ⟨⟨ha1, ha2, ha3⟩, ⟨hb1, hb2⟩, ⟨hc1, hc2⟩, ⟨hd1, hd2⟩⟩ := h
  unfold extentWithNeighborChunks Extent3i.fromMinAndMax VOXEL_CHUNK_SHAPE
  dsimp only
  simp only [point_sub_x, point_sub_y, point_sub_z, point_add_x, point_add_y,
    point_add_z]
  exact ⟨⟨ha1, ha2, ha3⟩, ⟨by omega, by omega⟩, ⟨by omega, by omega⟩,
    ⟨by omega, by omega⟩⟩

theorem editVoxels_editedVoxels (bb : EditedChunksBackBuffer) (reader : VoxelMapM)
    (extent : Extent3i) (f : EditFunc) :
    (editVoxelsOutOfPlace bb reader extent f).editedVoxels
      = forEachMut ((chunkKeysForExtent extent).foldl
          (fun m ck => alGetOrInsertWith m ck ((readerGetChunk reader ck).getD emptyChunk))
          bb.editedVoxels) extent f := rfl

theorem editVoxels_dirty (bb : EditedChunksBackBuffer) (reader : VoxelMapM)
    (extent : Extent3i) (f : EditFunc) :
    (editVoxelsOutOfPlace bb reader extent f).dirtyChunkKeys
      = (chunkKeysForExtent (extentWithNeighborChunks extent)).foldl hsInsert
          bb.dirtyChunkKeys := rfl

theorem editVoxels_keys_present (bb : EditedChunksBackBuffer) (reader : VoxelMapM)
    (extent : Extent3i) (f : EditFunc) :
    ∀ k ∈ chunkKeysForExtent extent,
      (alGet (editVoxelsOutOfPlace bb reader extent f).editedVoxels k).isSome := by
  intro k hk
  rw [editVoxels_editedVoxels]
  unfold forEachMut
  exact alGet_foldl_chunkWriteAt_isSome f _ _ k
    (foldl_getOrInsert_isSome_of_mem _ _ _ k hk)

/-- **C9**: staging the same extent twice with the same (idempotent) edit
closure is a no-op: the second call's copy-in phase leaves the backbuffer map
unchanged (already-staged chunks are kept, not re-copied), and the staged key
set, every staged voxel value, and the dirty-key set all equal the
single-staging ones. -/
theorem idempotent_restaging (reader : VoxelMapM) (bb : EditedChunksBackBuffer)
    (extent : Extent3i) (f : EditFunc) (hf : ∀ p v, f p (f p v) = f p v) :
    ((chunkKeysForExtent extent).foldl
        (fun m ck => alGetOrInsertWith m ck ((readerGetChunk reader ck).getD emptyChunk))
        (editVoxelsOutOfPlace bb reader extent f).editedVoxels
      = (editVoxelsOutOfPlace bb reader extent f).editedVoxels)
    ∧ alKeys (editVoxelsOutOfPlace (editVoxelsOutOfPlace bb reader extent f)
          reader extent f).editedVoxels
        = alKeys (editVoxelsOutOfPlace bb reader extent f).editedVoxels
    ∧ (∀ p, backbufferVoxelAt (editVoxelsOutOfPlace
            (editVoxelsOutOfPlace bb reader extent f) reader extent f) p
          = backbufferVoxelAt (editVoxelsOutOfPlace bb reader extent f) p)
    ∧ (editVoxelsOutOfPlace (editVoxelsOutOfPlace bb reader extent f)
          reader extent f).dirtyChunkKeys
        = (editVoxelsOutOfPlace bb reader extent f).dirtyChunkKeys := by
  have hpresent := editVoxels_keys_present bb reader extent f
  have hpoint : ∀ p ∈ extent.points,
      (alGet (editVoxelsOutOfPlace bb reader extent f).editedVoxels
        (chunkKeyContaining p)).isSome :=
    fun p hp => hpresent _ (chunkKey_mem_keysForExtent (mem_points.mp hp))
  have h1 : (chunkKeysForExtent extent).foldl
      (fun m ck => alGetOrInsertWith m ck ((readerGetChunk reader ck).getD emptyChunk))
      (editVoxelsOutOfPlace bb reader extent f).editedVoxels
      = (editVoxelsOutOfPlace bb reader extent f).editedVoxels :=
    foldl_getOrInsert_eq_of_all_present _ _ _ hpresent
  have htwice : (editVoxelsOutOfPlace (editVoxelsOutOfPlace bb reader extent f)
      reader extent f).editedVoxels
      = forEachMut (editVoxelsOutOfPlace bb reader extent f).editedVoxels extent f := by
    rw [editVoxels_editedVoxels, h1]
  refine ⟨h1, ?_, ?_, ?_⟩
  · rw [htwice]
    unfold forEachMut
    exact alKeys_foldl_chunkWriteAt f _ _ hpoint
  · intro p
    unfold backbufferVoxelAt
    rw [htwice, editVoxels_editedVoxels bb reader extent f]
    unfold forEachMut
    rw [alRead_foldl_chunkWriteAt_idem f hf, alRead_foldl_chunkWriteAt_idem f hf]
    by_cases hp : p ∈ extent.points
    · rw [if_pos hp, if_pos hp, hf]
    · rw [if_neg hp, if_neg hp]
  · rw [editVoxels_dirty (editVoxelsOutOfPlace bb reader extent f) reader extent f]
    apply foldl_hsInsert_eq_of_all_mem
    intro k hk
    rw [editVoxels_dirty, mem_foldl_hsInsert]
    exact Or.inr hk

/-- Witness for C9: a constant (hence idempotent) edit staged twice over a
single-point extent on an empty grid. -/
theorem idempotent_restaging_witness :
    alKeys (editVoxelsOutOfPlace
        (editVoxelsOutOfPlace EditedChunksBackBuffer.new ⟨[]⟩
          ⟨⟨0, 0, 0⟩, ⟨0, 0, 0⟩⟩ (fun _ _ => ⟨1, 0⟩)) ⟨[]⟩
        ⟨⟨0, 0, 0⟩, ⟨0, 0, 0⟩⟩ (fun _ _ => ⟨1, 0⟩)).editedVoxels
      = alKeys (editVoxelsOutOfPlace EditedChunksBackBuffer.new ⟨[]⟩
          ⟨⟨0, 0, 0⟩, ⟨0, 0, 0⟩⟩ (fun _ _ => ⟨1, 0⟩)).editedVoxels
    ∧ backbufferVoxelAt (editVoxelsOutOfPlace
        (editVoxelsOutOfPlace EditedChunksBackBuffer.new ⟨[]⟩
          ⟨⟨0, 0, 0⟩, ⟨0, 0, 0⟩⟩ (fun _ _ => ⟨1, 0⟩)) ⟨[]⟩
        ⟨⟨0, 0, 0⟩, ⟨0, 0, 0⟩⟩ (fun _ _ => ⟨1, 0⟩)) ⟨0, 0, 0⟩
      = backbufferVoxelAt (editVoxelsOutOfPlace EditedChunksBackBuffer.new ⟨[]⟩
          ⟨⟨0, 0, 0⟩, ⟨0, 0, 0⟩⟩ (fun _ _ => ⟨1, 0⟩)) ⟨0, 0, 0⟩ :=
  ⟨(idempotent_restaging ⟨[]⟩ EditedChunksBackBuffer.new ⟨⟨0, 0, 0⟩, ⟨0, 0, 0⟩⟩
      (fun _ _ => ⟨1, 0⟩) (fun _ _ => rfl)).2.1,
   (idempotent_restaging ⟨[]⟩ EditedChunksBackBuffer.new ⟨⟨0, 0, 0⟩, ⟨0, 0, 0⟩⟩
      (fun _ _ => ⟨1, 0⟩) (fun _ _ => rfl)).2.2.1 ⟨0, 0, 0⟩⟩

theorem mergeRun_dirty {w : WorldState} {out : MergeOut}
    (h : voxelDoubleBufferingRun w = some out) :
    out.dirty = w.backbuffer.dirtyChunkKeys := by
  unfold voxelDoubleBufferingRun at h
  cases hm : mergeChunksInto w.backbuffer.editedVoxels w.map.chunks with
  | none => rw [hm] at h; simp at h
  | some merged =>
      rw [hm] at h
      simp only [Option.map_some'] at h
      injection h with h
      rw [← h]

theorem stageEdit_dirty_monotone (w : WorldState) (e : Extent3i) (f : EditFunc)
    (k : Point3) (h : k ∈ w.backbuffer.dirtyChunkKeys) :
    k ∈ (stageEdit w e f).backbuffer.dirtyChunkKeys := by
  show k ∈ (editVoxelsOutOfPlace w.backbuffer w.map e f).dirtyChunkKeys
  rw [editVoxels_dirty, mem_foldl_hsInsert]
  exact Or.inl h

theorem stageEdits_dirty_monotone (edits : List (Extent3i × EditFunc)) :
    ∀ (w : WorldState) (k : Point3), k ∈ w.backbuffer.dirtyChunkKeys →
      k ∈ (stageEdits w edits).backbuffer.dirtyChunkKeys := by
  induction edits with
  | nil => intro w k h; exact h
  | cons e0 rest ih =>
      intro w k h
      exact ih (stageEdit w e0.1 e0.2) k (stageEdit_dirty_monotone w e0.1 e0.2 k h)

theorem stageEdits_dirty_contains_expanded (edits : List (Extent3i × EditFunc)) :
    ∀ w : WorldState, ∀ ef ∈ edits,
      ∀ k ∈ chunkKeysForExtent (extentWithNeighborChunks ef.1),
        k ∈ (stageEdits w edits).backbuffer.dirtyChunkKeys := by
  induction edits with
  | nil => intro w ef hef; simp at hef
  | cons e0 rest ih =>
      intro w ef hef k hk
      rcases List.mem_cons.mp hef with rfl | hef'
      · refine stageEdits_dirty_monotone rest (stageEdit w ef.1 ef.2) k ?_
        show k ∈ (editVoxelsOutOfPlace w.backbuffer w.map ef.1 ef.2).dirtyChunkKeys
        rw [editVoxels_dirty, mem_foldl_hsInsert]
        exact Or.inr hk
      · exact ih (stageEdit w e0.1 e0.2) ef hef' k hk

theorem stageEdit_keys_subset_dirty (w : WorldState) (e : Extent3i) (f : EditFunc)
    (hw : ∀ k ∈ alKeys w.backbuffer.editedVoxels, k ∈ w.backbuffer.dirtyChunkKeys) :
    ∀ k ∈ alKeys (stageEdit w e f).backbuffer.editedVoxels,
      k ∈ (stageEdit w e f).backbuffer.dirtyChunkKeys := by
  intro k hk
  have hk' : k ∈ alKeys (editVoxelsOutOfPlace w.backbuffer w.map e f).editedVoxels := hk
  rw [editVoxels_editedVoxels] at hk'
  unfold forEachMut at hk'
  have hdirty : k ∈ (editVoxelsOutOfPlace w.backbuffer w.map e f).dirtyChunkKeys →
      k ∈ (stageEdit w e f).backbuffer.dirtyChunkKeys := fun h => h
  apply hdirty
  rw [editVoxels_dirty, mem_foldl_hsInsert]
  have hkey : k ∈ chunkKeysForExtent e → k ∈ chunkKeysForExtent (extentWithNeighborChunks e) :=
    keysForExtent_subset_expanded
  rcases mem_alKeys_foldl_chunkWriteAt f _ _ k hk' with h0 | ⟨p, hp, rfl⟩
  · rcases mem_alKeys_foldl_getOrInsert _ _ _ k h0 with h1 | h1
    · exact Or.inl (hw k h1)
    · exact Or.inr (hkey h1)
  · exact Or.inr (hkey (chunkKey_mem_keysForExtent (mem_points.mp hp)))

theorem stageEdits_keys_subset_dirty (edits : List (Extent3i × EditFunc)) :
    ∀ w : WorldState,
      (∀ k ∈ alKeys w.backbuffer.editedVoxels, k ∈ w.backbuffer.dirtyChunkKeys) →
      ∀ k ∈ alKeys (stageEdits w edits).backbuffer.editedVoxels,
        k ∈ (stageEdits w edits).backbuffer.dirtyChunkKeys := by
  induction edits with
  | nil => intro w hw; exact hw
  | cons e0 rest ih =>
      intro w hw
      exact ih (stageEdit w e0.1 e0.2) (stageEdit_keys_subset_dirty w e0.1 e0.2 hw)

theorem aligned_overlap_mem_keys {k : Point3} {e : Extent3i}
    (hal : k = chunkKeyContaining k) (q : Point3)
    (hq1 : (extentForChunkAtKey k).containsPoint q) (hq2 : e.containsPoint q) :
    k ∈ chunkKeysForExtent e := by
  rw [mem_chunkKeysForExtent]
  obtain ⟨h1, h2, h3, h4, h5, h6⟩ := hq1
  obtain ⟨g1, g2, g3, g4, g5, g6⟩ := hq2
  have hx : k.x = 16 * (k.x / 16) := congrArg Point3.x hal
  have hy : k.y = 16 * (k.y / 16) := congrArg Point3.y hal
  have hz : k.z = 16 * (k.z / 16) := congrArg Point3.z hal
  rw [show (extentForChunkAtKey k).maximum = k + ⟨15, 15, 15⟩ from rfl] at h2 h4 h6
  rw [show (extentForChunkAtKey k).minimum = k from rfl] at h1 h3 h5
  rw [point_add_x] at h2
  rw [point_add_y] at h4
  rw [point_add_z] at h6
  dsimp only at h2 h4 h6
  exact ⟨⟨hx, hy, hz⟩, ⟨by omega, by omega⟩, ⟨by omega, by omega⟩,
    ⟨by omega, by omega⟩⟩

theorem singlePoint_expanded_keys (p k : Point3) :
    k ∈ chunkKeysForExtent (extentWithNeighborChunks ⟨p, p⟩)
      ↔ k ∈ chunkNeighborhood27 (chunkKeyContaining p) := by
  rw [mem_chunkKeysForExtent]
  unfold extentWithNeighborChunks Extent3i.fromMinAndMax VOXEL_CHUNK_SHAPE
    chunkNeighborhood27 chunkKeyContaining
  dsimp only
  simp only [point_sub_x, point_sub_y, point_sub_z, point_add_x, point_add_y,
    point_add_z, List.mem_flatMap, List.mem_map, List.mem_cons,
    List.not_mem_nil, or_false]
  constructor
  · rintro ⟨⟨ha1, ha2, ha3⟩, ⟨hb1, hb2⟩, ⟨hc1, hc2⟩, ⟨hd1, hd2⟩⟩
    refine ⟨k.x - 16 * (p.x / 16), by omega, k.y - 16 * (p.y / 16), by omega,
      k.z - 16 * (p.z / 16), by omega, ?_⟩
    cases k with
    | mk x y z =>
        rw [Point3.mk.injEq]
        dsimp only at ha1 ha2 ha3 hb1 hb2 hc1 hc2 hd1 hd2 ⊢
        omega
  · rintro ⟨dx, hdx, dy, hdy, dz, hdz, rfl⟩
    dsimp only
    exact ⟨⟨by omega, by omega, by omega⟩, ⟨by omega, by omega⟩,
      ⟨by omega, by omega⟩, ⟨by omega, by omega⟩⟩

/-- **C3**: the dirty set emitted by the merge system contains every staged
chunk key, every (aligned) chunk key whose chunk overlaps an edited extent
expanded by one full chunk shape per axis, and for a single-point edit those
keys are exactly the containing chunk key and its 26 adjacent chunk keys. -/
theorem merge_dirty_superset (map : VoxelMapM) (edits : List (Extent3i × EditFunc))
    (out : MergeOut)
    (hrun : voxelDoubleBufferingRun
      (stageEdits ⟨map, EditedChunksBackBuffer.new⟩ edits) = some out) :
    (∀ k ∈ alKeys (stageEdits ⟨map, EditedChunksBackBuffer.new⟩
        edits).backbuffer.editedVoxels, k ∈ out.dirty)
    ∧ (∀ ef ∈ edits, ∀ k ∈ chunkKeysForExtent (extentWithNeighborChunks ef.1),
        k ∈ out.dirty)
    ∧ (∀ ef ∈ edits, ∀ k : Point3, k = chunkKeyContaining k →
        (∃ q, (extentForChunkAtKey k).containsPoint q
            ∧ (extentWithNeighborChunks ef.1).containsPoint q) →
        k ∈ out.dirty)
    ∧ (∀ p k : Point3, k ∈ chunkKeysForExtent (extentWithNeighborChunks ⟨p, p⟩)
        ↔ k ∈ chunkNeighborhood27 (chunkKeyContaining p)) := by
  rw [mergeRun_dirty hrun]
  refine ⟨?_, ?_, ?_, singlePoint_expanded_keys⟩
  · exact stageEdits_keys_subset_dirty edits ⟨map, EditedChunksBackBuffer.new⟩
      (by intro k hk; simp [EditedChunksBackBuffer.new, alKeys] at hk)
  · exact stageEdits_dirty_contains_expanded edits ⟨map, EditedChunksBackBuffer.new⟩
  · rintro ef hef k hal ⟨q, hq1, hq2⟩
    exact stageEdits_dirty_contains_expanded edits ⟨map, EditedChunksBackBuffer.new⟩
      ef hef k (aligned_overlap_mem_keys hal q hq1 hq2)

/-- Witness for C3: a single point edit at the origin on an empty grid; after
the merge, the containing chunk key is in the emitted dirty set. -/
theorem merge_dirty_superset_witness :
    (⟨0, 0, 0⟩ : Point3) ∈
      (chunkKeysForExtent (extentWithNeighborChunks ⟨⟨0, 0, 0⟩, ⟨0, 0, 0⟩⟩)).foldl
        hsInsert [] :=
  (merge_dirty_superset ⟨[]⟩ [(⟨⟨0, 0, 0⟩, ⟨0, 0, 0⟩⟩, fun _ _ => ⟨1, 0⟩)] _ rfl).1
    ⟨0, 0, 0⟩ (by decide)

/-! ### Merge totality and the unreachable panic branch (claim C10) -/

theorem alGet_alInsert_self (m : ChunkAList) (k : Point3) (v : MaybeCompressed) :
    alGet (alInsert m k v) k = some v := by
  unfold alInsert
  cases hg : alGet m k with
  | some w => exact alGet_alSet_self m k v (by rw [hg]; rfl)
  | none =>
      rw [alGet_append, hg]
      simp [alGet]

theorem alGet_alInsert_ne (m : ChunkAList) (k k' : Point3) (v : MaybeCompressed)
    (h : k ≠ k') : alGet (alInsert m k v) k' = alGet m k' := by
  unfold alInsert
  cases hg : alGet m k with
  | some w => exact alGet_alSet_ne m k k' v h
  | none =>
      rw [alGet_append]
      cases hg' : alGet m k' with
      | some u => rfl
      | none => simp [alGet, h]

theorem mergeChunksInto_cons (k0 : Point3) (c : Chunk3) (rest : ChunkAList)
    (m : ChunkAList) :
    mergeChunksInto ((k0, .decompressed c) :: rest) m
      = mergeChunksInto rest (alInsert m k0 (.decompressed c)) := rfl

theorem mergeChunksInto_spec (entries : ChunkAList) :
    ∀ m : ChunkAList, AllDecompressed entries → (alKeys entries).Nodup →
      ∃ merged, mergeChunksInto entries m = some merged
        ∧ (∀ k, k ∉ alKeys entries → alGet merged k = alGet m k)
        ∧ (∀ e ∈ entries, alGet merged e.1 = some e.2) := by
  induction entries with
  | nil =>
      intro m _ _
      exact ⟨m, rfl, fun k _ => rfl, fun e he => absurd he (List.not_mem_nil e)⟩
  | cons e0 rest ih =>
      intro m hdec hnd
      obtain ⟨k0, v0⟩ := e0
      have hd0 : v0.isDecompressed := hdec (k0, v0) (List.mem_cons_self _ _)
      cases v0 with
      | compressed c => exact absurd hd0 (by simp [MaybeCompressed.isDecompressed])
      | decompressed c =>
          have hnd2 : (k0 :: alKeys rest).Nodup := hnd
          have hnd' : (alKeys rest).Nodup := (List.nodup_cons.mp hnd2).2
          have hk0 : k0 ∉ alKeys rest := (List.nodup_cons.mp hnd2).1
          obtain ⟨merged, hmerge, hother, hmem⟩ :=
            ih (alInsert m k0 (.decompressed c))
              (fun e he => hdec e (List.mem_cons_of_mem _ he)) hnd'
          refine ⟨merged, by rw [mergeChunksInto_cons]; exact hmerge, ?_, ?_⟩
          · intro k hk
            have hne : k0 ≠ k := by
              intro h
              exact hk (h ▸ by simp [alKeys])
            rw [hother k (fun h => hk (by simp [alKeys]; exact Or.inr (by
              simpa [alKeys] using h))), alGet_alInsert_ne m k0 k _ hne]
          · intro e he
            rcases List.mem_cons.mp he with rfl | he'
            · rw [hother k0 hk0, alGet_alInsert_self]
            · exact hmem e he'

theorem allDecompressed_alGetOrInsertWith (m : ChunkAList) (k : Point3) (c : Chunk3)
    (h : AllDecompressed m) : AllDecompressed (alGetOrInsertWith m k c) := by
  unfold alGetOrInsertWith
  cases hg : alGet m k with
  | some v => exact h
  | none =>
      intro e he
      rcases List.mem_append.mp he with h0 | h0
      · exact h e h0
      · simp only [List.mem_singleton] at h0
        subst h0
        trivial

theorem allDecompressed_alSet_decompressed (m : ChunkAList) (k : Point3) (c : Chunk3)
    (h : AllDecompressed m) : AllDecompressed (alSet m k (.decompressed c)) := by
  intro e he
  rcases List.mem_map.mp he with ⟨e0, he0, heq⟩
  by_cases h0 : e0.1 = k
  · rw [if_pos h0] at heq
    subst heq
    trivial
  · rw [if_neg h0] at heq
    subst heq
    exact h e0 he0

theorem allDecompressed_chunkWriteAt (m : ChunkAList) (f : EditFunc) (p : Point3)
    (h : AllDecompressed m) : AllDecompressed (chunkWriteAt m f p) := by
  cases hg : alGet m (chunkKeyContaining p) with
  | some mc =>
      rw [chunkWriteAt_of_some m f p mc hg]
      exact allDecompressed_alSet_decompressed m _ _ h
  | none =>
      rw [chunkWriteAt_of_none m f p hg]
      intro e he
      rcases List.mem_append.mp he with h0 | h0
      · exact h e h0
      · simp only [List.mem_singleton] at h0
        subst h0
        trivial

theorem allDecompressed_editVoxels (bb : EditedChunksBackBuffer) (reader : VoxelMapM)
    (extent : Extent3i) (f : EditFunc) (h : AllDecompressed bb.editedVoxels) :
    AllDecompressed (editVoxelsOutOfPlace bb reader extent f).editedVoxels := by
  rw [editVoxels_editedVoxels]
  unfold forEachMut
  have hcopy : AllDecompressed ((chunkKeysForExtent extent).foldl
      (fun m ck => alGetOrInsertWith m ck ((readerGetChunk reader ck).getD emptyChunk))
      bb.editedVoxels) := by
    generalize bb.editedVoxels = m0 at h ⊢
    induction chunkKeysForExtent extent generalizing m0 with
    | nil => exact h
    | cons k0 t ih =>
        simp only [List.foldl_cons]
        exact ih _ (allDecompressed_alGetOrInsertWith m0 k0 _ h)
  generalize hs : (chunkKeysForExtent extent).foldl
      (fun m ck => alGetOrInsertWith m ck ((readerGetChunk reader ck).getD emptyChunk))
      bb.editedVoxels = staged at hcopy
  clear hs
  induction extent.points generalizing staged with
  | nil => exact hcopy
  | cons p t ih =>
      simp only [List.foldl_cons]
      exact ih _ (allDecompressed_chunkWriteAt staged f p hcopy)

theorem allDecompressed_stageEdits (edits : List (Extent3i × EditFunc)) :
    ∀ w : WorldState, AllDecompressed w.backbuffer.editedVoxels →
      AllDecompressed (stageEdits w edits).backbuffer.editedVoxels := by
  induction edits with
  | nil => intro w h; exact h
  | cons e0 rest ih =>
      intro w h
      exact ih (stageEdit w e0.1 e0.2)
        (allDecompressed_editVoxels w.backbuffer w.map e0.1 e0.2 h)

theorem nodupKeys_alGetOrInsertWith (m : ChunkAList) (k : Point3) (c : Chunk3)
    (h : (alKeys m).Nodup) : (alKeys (alGetOrInsertWith m k c)).Nodup := by
  rw [alKeys_alGetOrInsertWith]
  by_cases hg : (alGet m k).isSome
  · rw [if_pos hg]
    exact h
  · rw [if_neg hg]
    have hk : k ∉ alKeys m := fun hm => hg ((alGet_isSome_iff_mem m k).mpr hm)
    exact h.append (List.nodup_singleton k) (fun a ha hb => by
      simp only [List.mem_singleton] at hb
      exact hk (hb ▸ ha))

theorem nodupKeys_chunkWriteAt (m : ChunkAList) (f : EditFunc) (p : Point3)
    (h : (alKeys m).Nodup) : (alKeys (chunkWriteAt m f p)).Nodup := by
  cases hg : alGet m (chunkKeyContaining p) with
  | some mc =>
      rw [chunkWriteAt_of_some m f p mc hg, alKeys_alSet]
      exact h
  | none =>
      rw [chunkWriteAt_of_none m f p hg, alKeys_append]
      have hk : chunkKeyContaining p ∉ alKeys m := by
        rw [← alGet_isSome_iff_mem, hg]
        simp
      exact h.append (List.nodup_singleton _) (fun a ha hb => by
        simp only [alKeys, List.map_cons, List.map_nil, List.mem_singleton] at hb
        exact hk (hb ▸ ha))

theorem nodupKeys_editVoxels (bb : EditedChunksBackBuffer) (reader : VoxelMapM)
    (extent : Extent3i) (f : EditFunc) (h : (alKeys bb.editedVoxels).Nodup) :
    (alKeys (editVoxelsOutOfPlace bb reader extent f).editedVoxels).Nodup := by
  rw [editVoxels_editedVoxels]
  unfold forEachMut
  have hcopy : (alKeys ((chunkKeysForExtent extent).foldl
      (fun m ck => alGetOrInsertWith m ck ((readerGetChunk reader ck).getD emptyChunk))
      bb.editedVoxels)).Nodup := by
    generalize bb.editedVoxels = m0 at h ⊢
    induction chunkKeysForExtent extent generalizing m0 with
    | nil => exact h
    | cons k0 t ih =>
        simp only [List.foldl_cons]
        exact ih _ (nodupKeys_alGetOrInsertWith m0 k0 _ h)
  generalize hs : (chunkKeysForExtent extent).foldl
      (fun m ck => alGetOrInsertWith m ck ((readerGetChunk reader ck).getD emptyChunk))
      bb.editedVoxels = staged at hcopy
  clear hs
  induction extent.points generalizing staged with
  | nil => exact hcopy
  | cons p t ih =>
      simp only [List.foldl_cons]
      exact ih _ (nodupKeys_chunkWriteAt staged f p hcopy)

theorem nodupKeys_stageEdits (edits : List (Extent3i × EditFunc)) :
    ∀ w : WorldState, (alKeys w.backbuffer.editedVoxels).Nodup →
      (alKeys (stageEdits w edits).backbuffer.editedVoxels).Nodup := by
  induction edits with
  | nil => intro w h; exact h
  | cons e0 rest ih =>
      intro w h
      exact ih (stageEdit w e0.1 e0.2)
        (nodupKeys_editVoxels w.backbuffer w.map e0.1 e0.2 h)

/-- **C10**: every chunk the staging backbuffer ever holds is decompressed, so
the merge system's `panic!("Never compress the back buffer")` branch is
unreachable: the merge always succeeds, inserts every staged chunk into the
authoritative map, and replaces the backbuffer with a fresh empty one. -/
theorem merge_never_panics (map : VoxelMapM) (edits : List (Extent3i × EditFunc)) :
    AllDecompressed (stageEdits ⟨map, EditedChunksBackBuffer.new⟩
        edits).backbuffer.editedVoxels
    ∧ ∃ out, voxelDoubleBufferingRun
          (stageEdits ⟨map, EditedChunksBackBuffer.new⟩ edits) = some out
        ∧ out.backbuffer.editedVoxels = []
        ∧ out.backbuffer.dirtyChunkKeys = []
        ∧ (∀ e ∈ (stageEdits ⟨map, EditedChunksBackBuffer.new⟩
              edits).backbuffer.editedVoxels,
            alGet out.map.chunks e.1 = some e.2) := by
  have hdec : AllDecompressed (stageEdits ⟨map, EditedChunksBackBuffer.new⟩
      edits).backbuffer.editedVoxels :=
    allDecompressed_stageEdits edits ⟨map, EditedChunksBackBuffer.new⟩
      (fun e he => absurd he (List.not_mem_nil e))
  have hnd : (alKeys (stageEdits ⟨map, EditedChunksBackBuffer.new⟩
      edits).backbuffer.editedVoxels).Nodup :=
    nodupKeys_stageEdits edits ⟨map, EditedChunksBackBuffer.new⟩ List.nodup_nil
  obtain ⟨merged, hmerge, _, hmem⟩ :=
    mergeChunksInto_spec _ (stageEdits ⟨map, EditedChunksBackBuffer.new⟩
      edits).map.chunks hdec hnd
  refine ⟨hdec, ⟨⟨⟨merged⟩, (stageEdits ⟨map, EditedChunksBackBuffer.new⟩
      edits).backbuffer.dirtyChunkKeys, EditedChunksBackBuffer.new⟩, ?_, rfl, rfl, ?_⟩⟩
  · unfold voxelDoubleBufferingRun
    rw [hmerge]
    rfl
  · exact hmem

/-- Witness for C10: one staged single-point edit on an empty grid; the staged
chunk slot is decompressed and the merge run returns a result. -/
theorem merge_never_panics_witness :
    AllDecompressed (stageEdits ⟨⟨[]⟩, EditedChunksBackBuffer.new⟩
        [(⟨⟨0, 0, 0⟩, ⟨0, 0, 0⟩⟩, fun _ _ => ⟨1, 0⟩)]).backbuffer.editedVoxels
    ∧ (voxelDoubleBufferingRun (stageEdits ⟨⟨[]⟩, EditedChunksBackBuffer.new⟩
        [(⟨⟨0, 0, 0⟩, ⟨0, 0, 0⟩⟩, fun _ _ => ⟨1, 0⟩)])).isSome := by
  obtain ⟨out, hout, _⟩ := (merge_never_panics ⟨[]⟩
    [(⟨⟨0, 0, 0⟩, ⟨0, 0, 0⟩⟩, fun _ _ => ⟨1, 0⟩)]).2
  exact ⟨(merge_never_panics ⟨[]⟩
    [(⟨⟨0, 0, 0⟩, ⟨0, 0, 0⟩⟩, fun _ _ => ⟨1, 0⟩)]).1, by rw [hout]; rfl⟩

/-- Witness for C5 at the example cube: the returned BVT is precisely the
surface-voxel leaf list. -/
theorem generate_chunk_bvt_surface_witness :
    generateChunkBvt exampleCubeSource exampleCubeExtent
        = some ⟨(findSurfaceVoxels exampleCubeSource exampleCubeExtent).map
            (fun p => (voxelAabb p, p))⟩
    ∧ (LatticeBvtLeaves.mk ((findSurfaceVoxels exampleCubeSource exampleCubeExtent).map
          (fun p => (voxelAabb p, p)))).leaves
        = (findSurfaceVoxels exampleCubeSource exampleCubeExtent).map
            (fun p => (voxelAabb p, p)) :=
  ⟨by decide,
   (generate_chunk_bvt_surface exampleCubeSource exampleCubeExtent).2.1 _ (by decide)⟩

/-! ### Nearest-ray-cast pruning (claim C6) -/

theorem infTois_nil {Q : Type} [LinearOrder Q] : infTois ([] : List Q) = ⊤ := rfl

theorem infTois_cons {Q : Type} [LinearOrder Q] (t : Q) (l : List Q) :
    infTois (t :: l) = min (t : WithTop Q) (infTois l) := rfl

theorem infTois_append {Q : Type} [LinearOrder Q] (a b : List Q) :
    infTois (a ++ b) = min (infTois a) (infTois b) := by
  induction a with
  | nil =>
      rw [List.nil_append, infTois_nil, min_eq_right le_top]
  | cons t rest ih =>
      rw [List.cons_append, infTois_cons, ih, infTois_cons, min_assoc]

theorem le_infTois_iff {Q : Type} [LinearOrder Q] (c : WithTop Q) (l : List Q) :
    c ≤ infTois l ↔ ∀ t ∈ l, c ≤ (t : WithTop Q) := by
  induction l with
  | nil => simp [infTois_nil]
  | cons t rest ih =>
      rw [infTois_cons, le_min_iff, ih]
      simp [List.mem_cons, or_imp, forall_and]

theorem infTois_le {Q : Type} [LinearOrder Q] {t' : Q} {l : List Q} (h : t' ∈ l) :
    infTois l ≤ (t' : WithTop Q) := by
  induction l with
  | nil => simp at h
  | cons t0 rest ih =>
      rw [infTois_cons]
      rcases List.mem_cons.mp h with rfl | h0
      · exact min_le_left _ _
      · exact (min_le_right _ _).trans (ih h0)

theorem infTois_eq_top_iff {Q : Type} [LinearOrder Q] {l : List Q} :
    infTois l = ⊤ ↔ l = [] := by
  cases l with
  | nil => simp [infTois_nil]
  | cons t rest => simp [infTois_cons, min_eq_top, WithTop.coe_ne_top]

theorem predLeafTois_leaf {BV T Q : Type} [LinearOrder Q] (toiWithRay : BV → Option Q)
    (predicateFn : T → Bool) (bv : BV) (d : T) :
    predLeafTois toiWithRay predicateFn (.leaf bv d)
      = if predicateFn d then (toiWithRay bv).toList else [] := by
  unfold predLeafTois BVTree.leavesList
  by_cases hp : predicateFn d <;>
    cases htoi : toiWithRay bv <;> simp [List.filterMap, hp, htoi]

theorem predLeafTois_node {BV T Q : Type} [LinearOrder Q] (toiWithRay : BV → Option Q)
    (predicateFn : T → Bool) (bv : BV) (l r : BVTree BV T) :
    predLeafTois toiWithRay predicateFn (.node bv l r)
      = predLeafTois toiWithRay predicateFn l ++ predLeafTois toiWithRay predicateFn r := by
  unfold predLeafTois
  rw [show (BVTree.node bv l r).leavesList = l.leavesList ++ r.leavesList from rfl,
    List.filterMap_append]

theorem mem_predLeafTois {BV T Q : Type} [LinearOrder Q] {toiWithRay : BV → Option Q}
    {predicateFn : T → Bool} {t : BVTree BV T} {t' : Q} :
    t' ∈ predLeafTois toiWithRay predicateFn t
      ↔ ∃ bvd ∈ t.leavesList, predicateFn bvd.2 = true ∧ toiWithRay bvd.1 = some t' := by
  unfold predLeafTois
  rw [List.mem_filterMap]
  constructor
  · rintro ⟨bvd, hm, hf⟩
    by_cases hp : predicateFn bvd.2
    · rw [if_pos hp] at hf
      exact ⟨bvd, hm, hp, hf⟩
    · rw [if_neg hp] at hf
      exact absurd hf (Option.noConfusion)
  · rintro ⟨bvd, hm, hp, htoi⟩
    exact ⟨bvd, hm, by rw [if_pos hp, htoi]⟩

theorem coversB_elim {BV T Q : Type} [LinearOrder Q] {toiWithRay : BV → Option Q}
    {parentBv : BV} {child : BVTree BV T}
    (h : coversB toiWithRay parentBv child = true) {tc : Q}
    (hc : toiWithRay child.rootBv = some tc) :
    ∃ tp, toiWithRay parentBv = some tp ∧ tp ≤ tc := by
  unfold coversB at h
  rw [hc] at h
  cases hp : toiWithRay parentBv with
  | none => rw [hp] at h; exact absurd h (Bool.false_ne_true)
  | some tp =>
      rw [hp] at h
      exact ⟨tp, rfl, of_decide_eq_true h⟩

theorem wellBounded_leaf_toi {BV T Q : Type} [LinearOrder Q]
    (toiWithRay : BV → Option Q) (t : BVTree BV T)
    (hwb : wellBoundedB toiWithRay t = true) :
    ∀ bv d tl, (bv, d) ∈ t.leavesList → toiWithRay bv = some tl →
      ∃ tr, toiWithRay t.rootBv = some tr ∧ tr ≤ tl := by
  induction t with
  | leaf bv0 d0 =>
      intro bv d tl hm htoi
      simp only [BVTree.leavesList, List.mem_singleton, Prod.mk.injEq] at hm
      obtain ⟨rfl, rfl⟩ := hm
      exact ⟨tl, htoi, le_refl tl⟩
  | node bv0 l r ihl ihr =>
      intro bv d tl hm htoi
      simp only [wellBoundedB, Bool.and_eq_true] at hwb
      obtain ⟨⟨⟨hcl, hcr⟩, hwl⟩, hwr⟩ := hwb
      simp only [BVTree.leavesList, List.mem_append] at hm
      rcases hm with hm | hm
      · obtain ⟨trl, hroot, hle⟩ := ihl hwl bv d tl hm htoi
        obtain ⟨tp, hp, hple⟩ := coversB_elim hcl hroot
        exact ⟨tp, hp, hple.trans hle⟩
      · obtain ⟨trr, hroot, hle⟩ := ihr hwr bv d tl hm htoi
        obtain ⟨tp, hp, hple⟩ := coversB_elim hcr hroot
        exact ⟨tp, hp, hple.trans hle⟩

theorem bvhVisit_spec {BV T Q : Type} [LinearOrder Q] (toiWithRay : BV → Option Q)
    (predicateFn : T → Bool) (t : BVTree BV T) :
    wellBoundedB toiWithRay t = true →
    ∀ s : NearestCastState BV T Q,
      (bvhVisitFrom toiWithRay predicateFn t s = s
        ∧ s.earliestToi ≤ infTois (predLeafTois toiWithRay predicateFn t))
      ∨ (∃ bv d tq, (bv, d) ∈ t.leavesList ∧ predicateFn d = true
          ∧ toiWithRay bv = some tq
          ∧ bvhVisitFrom toiWithRay predicateFn t s
              = ⟨(tq : WithTop Q), some bv, some d⟩
          ∧ (tq : WithTop Q) < s.earliestToi
          ∧ ∀ t' ∈ predLeafTois toiWithRay predicateFn t, tq ≤ t') := by
  induction t with
  | leaf bv d =>
      intro _ s
      cases htoi : toiWithRay bv with
      | none =>
          left
          constructor
          · show (nearestVisit toiWithRay predicateFn bv (some d) s).2 = s
            simp [nearestVisit, htoi]
          · rw [predLeafTois_leaf, htoi]
            by_cases hp : predicateFn d
            · rw [if_pos hp]
              exact le_top
            · rw [if_neg hp]
              exact le_top
      | some tq =>
          by_cases hlt : (tq : WithTop Q) < s.earliestToi
          · by_cases hp : predicateFn d
            · right
              refine ⟨bv, d, tq, List.mem_singleton.mpr rfl, hp, htoi, ?_, hlt, ?_⟩
              · show (nearestVisit toiWithRay predicateFn bv (some d) s).2 = _
                simp [nearestVisit, htoi, hlt, hp]
              · intro t' ht'
                rw [predLeafTois_leaf, if_pos hp, htoi] at ht'
                simp only [Option.toList, List.mem_singleton] at ht'
                exact le_of_eq ht'.symm
            · left
              constructor
              · show (nearestVisit toiWithRay predicateFn bv (some d) s).2 = s
                simp [nearestVisit, htoi, hlt, hp]
              · rw [predLeafTois_leaf, htoi, if_neg hp]
                exact le_top
          · left
            constructor
            · show (nearestVisit toiWithRay predicateFn bv (some d) s).2 = s
              simp [nearestVisit, htoi, hlt]
            · rw [predLeafTois_leaf, htoi]
              by_cases hp : predicateFn d
              · rw [if_pos hp]
                rw [le_infTois_iff]
                intro t' ht'
                simp only [Option.toList, List.mem_singleton] at ht'
                subst ht'
                exact le_of_not_lt hlt
              · rw [if_neg hp]
                exact le_top
  | node bv l r ihl ihr =>
      intro hwb0 s
      have hwb := hwb0
      simp only [wellBoundedB, Bool.and_eq_true] at hwb
      obtain ⟨⟨⟨hcl, hcr⟩, hwl⟩, hwr⟩ := hwb
      have hvisit : bvhVisitFrom toiWithRay predicateFn (.node bv l r) s
          = match nearestVisit toiWithRay predicateFn bv none s with
            | (.Stop, s') => s'
            | (.Continue, s') => bvhVisitFrom toiWithRay predicateFn r
                (bvhVisitFrom toiWithRay predicateFn l s') := rfl
      cases htoi : toiWithRay bv with
      | none =>
          have hs : bvhVisitFrom toiWithRay predicateFn (.node bv l r) s = s := by
            rw [hvisit]
            simp [nearestVisit, htoi]
          left
          refine ⟨hs, ?_⟩
          have htois : predLeafTois toiWithRay predicateFn (.node bv l r) = [] := by
            by_contra hne
            obtain ⟨t', ht'⟩ := List.exists_mem_of_ne_nil _ hne
            obtain ⟨bvd, hm, hp, htoi'⟩ := mem_predLeafTois.mp ht'
            obtain ⟨tr, hroot, _⟩ := wellBounded_leaf_toi toiWithRay (.node bv l r)
              hwb0 bvd.1 bvd.2 t' hm htoi'
            rw [show (BVTree.node bv l r).rootBv = bv from rfl, htoi] at hroot
            exact Option.noConfusion hroot
          rw [htois]
          exact le_top
      | some t0 =>
          by_cases hlt : (t0 : WithTop Q) < s.earliestToi
          · have hs : bvhVisitFrom toiWithRay predicateFn (.node bv l r) s
                = bvhVisitFrom toiWithRay predicateFn r
                    (bvhVisitFrom toiWithRay predicateFn l s) := by
              rw [hvisit]
              simp [nearestVisit, htoi, hlt]
            rcases ihl hwl s with ⟨heql, hlel⟩ |
              ⟨bvl, dl, tl, hml, hpl, htoil, heql, hltl, hminl⟩
            · rcases ihr hwr s with ⟨heqr, hler⟩ |
                ⟨bvr, dr, tr, hmr, hpr, htoir, heqr, hltr, hminr⟩
              · left
                refine ⟨by rw [hs, heql, heqr], ?_⟩
                rw [predLeafTois_node, infTois_append, le_min_iff]
                exact ⟨hlel, hler⟩
              · right
                refine ⟨bvr, dr, tr, ?_, hpr, htoir, ?_, hltr, ?_⟩
                · show (bvr, dr) ∈ (BVTree.node bv l r).leavesList
                  rw [show (BVTree.node bv l r).leavesList
                      = l.leavesList ++ r.leavesList from rfl]
                  exact List.mem_append_right _ hmr
                · rw [hs, heql, heqr]
                · intro t' ht'
                  rw [predLeafTois_node] at ht'
                  rcases List.mem_append.mp ht' with h0 | h0
                  · have h1 : s.earliestToi ≤ (t' : WithTop Q) :=
                      hlel.trans (infTois_le h0)
                    have h2 : (tr : WithTop Q) ≤ (t' : WithTop Q) :=
                      le_of_lt (lt_of_lt_of_le hltr h1)
                    exact_mod_cast h2
                  · exact hminr t' h0
            · rcases ihr hwr ⟨(tl : WithTop Q), some bvl, some dl⟩ with ⟨heqr, hler⟩ |
                ⟨bvr, dr, tr, hmr, hpr, htoir, heqr, hltr, hminr⟩
              · right
                refine ⟨bvl, dl, tl, ?_, hpl, htoil, ?_, hltl, ?_⟩
                · show (bvl, dl) ∈ (BVTree.node bv l r).leavesList
                  rw [show (BVTree.node bv l r).leavesList
                      = l.leavesList ++ r.leavesList from rfl]
                  exact List.mem_append_left _ hml
                · rw [hs, heql, heqr]
                · intro t' ht'
                  rw [predLeafTois_node] at ht'
                  rcases List.mem_append.mp ht' with h0 | h0
                  · exact hminl t' h0
                  · have h2 : (tl : WithTop Q) ≤ (t' : WithTop Q) :=
                      hler.trans (infTois_le h0)
                    exact_mod_cast h2
              · right
                refine ⟨bvr, dr, tr, ?_, hpr, htoir, ?_, ?_, ?_⟩
                · show (bvr, dr) ∈ (BVTree.node bv l r).leavesList
                  rw [show (BVTree.node bv l r).leavesList
                      = l.leavesList ++ r.leavesList from rfl]
                  exact List.mem_append_right _ hmr
                · rw [hs, heql, heqr]
                · exact lt_trans hltr hltl
                · intro t' ht'
                  rw [predLeafTois_node] at ht'
                  rcases List.mem_append.mp ht' with h0 | h0
                  · have hltr' : (tr : WithTop Q) < (tl : WithTop Q) := hltr
                    have h1 : tr < tl := by exact_mod_cast hltr'
                    exact le_of_lt (lt_of_lt_of_le h1 (hminl t' h0))
                  · exact hminr t' h0
          · have hs : bvhVisitFrom toiWithRay predicateFn (.node bv l r) s = s := by
              rw [hvisit]
              simp [nearestVisit, htoi, hlt]
            left
            refine ⟨hs, ?_⟩
            rw [le_infTois_iff]
            intro t' ht'
            obtain ⟨bvd, hm, hp, htoi'⟩ := mem_predLeafTois.mp ht'
            obtain ⟨tr, hroot, hle⟩ := wellBounded_leaf_toi toiWithRay (.node bv l r)
              hwb0 bvd.1 bvd.2 t' hm htoi'
            rw [show (BVTree.node bv l r).rootBv = bv from rfl, htoi] at hroot
            injection hroot with hroot
            have h1 : s.earliestToi ≤ (t0 : WithTop Q) := le_of_not_lt hlt
            have h2 : (t0 : WithTop Q) ≤ (t' : WithTop Q) := by
              exact_mod_cast hroot ▸ hle
            exact h1.trans h2

/-- **C6**: over a well-bounded BVH (each subtree's root bound is hit by the
ray no later than any bound below it, as containment guarantees), the nearest
ray cast returns `some` exactly when the ray hits the bound of at least one
leaf whose data passes the predicate, and then the returned time of impact is
the minimum over all such leaves — the `Stop` pruning never discards the true
nearest predicate-satisfying hit. -/
theorem nearest_ray_cast_minimal {BV T Q : Type} [LinearOrder Q]
    (bvh : BVTree BV T) (toiWithRay : BV → Option Q) (predicateFn : T → Bool)
    (hwb : wellBoundedB toiWithRay bvh = true) :
    ((nearestBoundingVolumeRayCast bvh toiWithRay predicateFn).isSome
        ↔ ∃ bvd ∈ bvh.leavesList, predicateFn bvd.2 = true ∧ (toiWithRay bvd.1).isSome)
    ∧ (∀ res, nearestBoundingVolumeRayCast bvh toiWithRay predicateFn = some res →
        predicateFn res.data = true
        ∧ (∃ t' ∈ predLeafTois toiWithRay predicateFn bvh, res.toi = (t' : WithTop Q))
        ∧ (∀ t' ∈ predLeafTois toiWithRay predicateFn bvh,
            res.toi ≤ (t' : WithTop Q))) := by
  have hspec := bvhVisit_spec toiWithRay predicateFn bvh hwb
    (NearestCastState.init BV T Q)
  unfold nearestBoundingVolumeRayCast
  rcases hspec with ⟨heq, hle⟩ | ⟨bv, d, tq, hm, hp, htoi, heq, hlt, hmin⟩
  · rw [heq]
    have htois : predLeafTois toiWithRay predicateFn bvh = [] := by
      rw [← infTois_eq_top_iff]
      exact top_le_iff.mp hle
    constructor
    · constructor
      · intro h
        exact absurd h (by simp [NearestCastState.init])
      · rintro ⟨bvd, hmm, hpp, hsome⟩
        exfalso
        obtain ⟨t', hsome'⟩ := Option.isSome_iff_exists.mp hsome
        have hmem : t' ∈ predLeafTois toiWithRay predicateFn bvh :=
          mem_predLeafTois.mpr ⟨bvd, hmm, hpp, hsome'⟩
        rw [htois] at hmem
        exact List.not_mem_nil t' hmem
    · intro res hres
      simp [NearestCastState.init] at hres
  · rw [heq]
    constructor
    · constructor
      · intro _
        exact ⟨(bv, d), hm, hp, by rw [htoi]; rfl⟩
      · intro _
        simp
    · intro res hres
      dsimp only at hres
      simp only [Option.some.injEq] at hres
      rw [← hres]
      refine ⟨hp, ⟨tq, mem_predLeafTois.mpr ⟨(bv, d), hm, hp, htoi⟩, rfl⟩,
        fun t' ht' => ?_⟩
      show (tq : WithTop Q) ≤ (t' : WithTop Q)
      exact_mod_cast hmin t' ht'

/-- Witness for C6: a two-leaf tree whose root bound is hit at time 1 and
whose leaves are hit at times 3 and 2; the cast returns a result. -/
theorem nearest_ray_cast_minimal_witness :
    wellBoundedB c6Toi c6Tree = true
    ∧ (nearestBoundingVolumeRayCast c6Tree c6Toi (fun _ => true)).isSome :=
  ⟨by decide,
   (nearest_ray_cast_minimal c6Tree c6Toi (fun _ => true) (by decide)).1.mpr
     ⟨(1, 10), by decide, rfl, by decide⟩⟩

/-! ### Bounded search termination (claim C8, amended) -/

theorem foldl_pick_mem {C : Type} [LinearOrder C] (tl : List (SmallestCostHolder C)) :
    ∀ hd : SmallestCostHolder C,
      (tl.foldl (fun b x => if holderBeats x b then x else b) hd) ∈ hd :: tl := by
  induction tl with
  | nil => intro hd; exact List.mem_singleton.mpr rfl
  | cons x t ih =>
      intro hd
      simp only [List.foldl_cons]
      by_cases hb : holderBeats x hd = true
      · rw [if_pos hb]
        exact List.mem_cons_of_mem hd (ih x)
      · rw [if_neg hb]
        rcases List.mem_cons.mp (ih hd) with h0 | h0
        · rw [h0]
          exact List.mem_cons_self hd (x :: t)
        · exact List.mem_cons_of_mem hd (List.mem_cons_of_mem x h0)

theorem heapPop_some_length {C : Type} [LinearOrder C]
    {l rest : List (SmallestCostHolder C)} {holder : SmallestCostHolder C}
    (h : heapPop l = some (holder, rest)) : rest.length + 1 = l.length ∧ l ≠ [] := by
  cases l with
  | nil => exact absurd h (by simp [heapPop])
  | cons hd tl =>
      unfold heapPop at h
      simp only [Option.some.injEq, Prod.mk.injEq] at h
      obtain ⟨hh, hr⟩ := h
      refine ⟨?_, by simp⟩
      rw [← hr]
      exact List.length_erase_add_one (hh ▸ foldl_pick_mem tl hd)

theorem processSuccessor_numIters {N C : Type} [DecidableEq N] [LinearOrder C]
    [Add C] (heuristic : N → C) (index : Nat) (cost : C)
    (st : SearchState N C) (sc : N × C) :
    (processSuccessor heuristic index cost st sc).numIters = st.numIters := by
  unfold processSuccessor pushAndTrackBest
  cases hf : st.parents.findIdx? (fun e => e.1 = sc.1) with
  | none =>
      dsimp only
      split <;> rfl
  | some j =>
      dsimp only
      cases hg : st.parents.get? j with
      | none => rfl
      | some entry =>
          dsimp only
          by_cases hc : cost + sc.2 < entry.2.2
          · rw [if_pos hc]
            split <;> rfl
          · rw [if_neg hc]

theorem foldl_processSuccessor_numIters {N C : Type} [DecidableEq N] [LinearOrder C]
    [Add C] (heuristic : N → C) (index : Nat) (cost : C)
    (l : List (N × C)) :
    ∀ st : SearchState N C,
      (l.foldl (processSuccessor heuristic index cost) st).numIters = st.numIters := by
  induction l with
  | nil => intro st; rfl
  | cons sc t ih =>
      intro st
      simp only [List.foldl_cons]
      rw [ih, processSuccessor_numIters]

/-- Case analysis of one loop step: it either returns, discards a stale heap
entry (frontier shrinks, no expansion counted), or performs one expansion
(`num_iters` increments and did not reach the cap). -/
theorem astarStep_cases {N C : Type} [DecidableEq N] [LinearOrder C] [Zero C] [Add C]
    (successors : N → List (N × C)) (heuristic : N → C) (success : N → Bool)
    (maxIterations : Nat) (s : SearchState N C) :
    (∃ r, astarStep successors heuristic success maxIterations s = .inl r)
    ∨ (∃ s', astarStep successors heuristic success maxIterations s = .inr s'
        ∧ s'.numIters = s.numIters ∧ s'.toSee.length + 1 = s.toSee.length)
    ∨ (∃ s', astarStep successors heuristic success maxIterations s = .inr s'
        ∧ s'.numIters = s.numIters + 1 ∧ s'.numIters ≠ maxIterations) := by
  cases hpop : heapPop s.toSee with
  | none =>
      exact Or.inl ⟨_, by unfold astarStep; rw [hpop]⟩
  | some pr =>
      obtain ⟨holder, rest⟩ := pr
      obtain ⟨hlen, -⟩ := heapPop_some_length hpop
      cases hget : s.parents.get? holder.index with
      | none =>
          exact Or.inl ⟨AstarOutcome.panicked, by
            unfold astarStep; rw [hpop]; dsimp only; rw [hget]⟩
      | some entry =>
          obtain ⟨node, pidx, c⟩ := entry
          by_cases hsucc : success node = true
          · exact Or.inl ⟨_, by
              unfold astarStep; rw [hpop]; dsimp only; rw [hget]; dsimp only;
                rw [if_pos hsucc]⟩
          · by_cases hstale : c < holder.cost
            · refine Or.inr (Or.inl ⟨{ s with toSee := rest }, ?_, rfl, hlen⟩)
              unfold astarStep
              rw [hpop]
              dsimp only
              rw [hget]
              dsimp only
              rw [if_neg hsucc, if_pos hstale]
            · have hnum : ((successors node).foldl
                  (processSuccessor heuristic holder.index holder.cost)
                  { s with toSee := rest }).numIters = s.numIters :=
                foldl_processSuccessor_numIters heuristic holder.index holder.cost
                  (successors node) { s with toSee := rest }
              by_cases hcap : ((successors node).foldl
                  (processSuccessor heuristic holder.index holder.cost)
                  { s with toSee := rest }).numIters + 1 = maxIterations
              · exact Or.inl ⟨_, by
                  unfold astarStep; rw [hpop]; try dsimp only
                  rw [hget]; try dsimp only
                  rw [if_neg hsucc, if_neg hstale]; try dsimp only
                  rw [if_pos hcap]⟩
              · refine Or.inr (Or.inr ⟨{ ((successors node).foldl
                    (processSuccessor heuristic holder.index holder.cost)
                    { s with toSee := rest }) with
                      numIters := ((successors node).foldl
                        (processSuccessor heuristic holder.index holder.cost)
                        { s with toSee := rest }).numIters + 1 }, ?_, ?_, ?_⟩)
                · unfold astarStep
                  rw [hpop]
                  try dsimp only
                  rw [hget]
                  try dsimp only
                  rw [if_neg hsucc, if_neg hstale]
                  try dsimp only
                  rw [if_neg hcap]
                · try dsimp only
                  rw [hnum]
                · try dsimp only
                  exact hcap

theorem astarIterFrom_succ_left {N C : Type} [DecidableEq N] [LinearOrder C]
    [Add C] (successors : N → List (N × C)) (heuristic : N → C)
    (success : N → Bool) (maxIterations : Nat) (s0 : SearchState N C) (k : Nat) :
    astarIterFrom successors heuristic success maxIterations s0 (k + 1)
      = match astarStep successors heuristic success maxIterations s0 with
        | .inl r => .inl r
        | .inr s1 => astarIterFrom successors heuristic success maxIterations s1 k := by
  induction k with
  | zero =>
      cases hstep : astarStep successors heuristic success maxIterations s0 with
      | inl r => simp [astarIterFrom, hstep]
      | inr s1 => simp [astarIterFrom, hstep]
  | succ k ih =>
      have hdef : astarIterFrom successors heuristic success maxIterations s0 (k + 1 + 1)
          = match astarIterFrom successors heuristic success maxIterations s0 (k + 1) with
            | Sum.inl r => Sum.inl r
            | Sum.inr s => astarStep successors heuristic success maxIterations s := rfl
      rw [hdef, ih]
      cases hstep : astarStep successors heuristic success maxIterations s0 with
      | inl r => rfl
      | inr s1 => rfl

theorem astar_terminates_aux {N C : Type} [DecidableEq N] [LinearOrder C]
    [Zero C] [Add C] (successors : N → List (N × C)) (heuristic : N → C)
    (success : N → Bool) (maxIterations : Nat) :
    ∀ n m : Nat, ∀ s : SearchState N C, s.numIters < maxIterations →
      maxIterations - s.numIters ≤ n → s.toSee.length ≤ m →
      ∃ k r, astarIterFrom successors heuristic success maxIterations s k = .inl r := by
  intro n
  induction n with
  | zero => intro m s h1 h2 _; omega
  | succ n ihn =>
      intro m
      induction m with
      | zero =>
          intro s h1 h2 h3
          rcases astarStep_cases successors heuristic success maxIterations s with
            ⟨r, hstep⟩ | ⟨s', hstep, _, hl⟩ | ⟨s', hstep, hn', hne⟩
          · exact ⟨1, r, by rw [astarIterFrom_succ_left, hstep]⟩
          · omega
          · have h1' : s'.numIters < maxIterations := by omega
            obtain ⟨k, r, hk⟩ := ihn s'.toSee.length s' h1' (by omega) (le_refl _)
            exact ⟨k + 1, r, by rw [astarIterFrom_succ_left, hstep]; exact hk⟩
      | succ m ihm =>
          intro s h1 h2 h3
          rcases astarStep_cases successors heuristic success maxIterations s with
            ⟨r, hstep⟩ | ⟨s', hstep, hn', hl⟩ | ⟨s', hstep, hn', hne⟩
          · exact ⟨1, r, by rw [astarIterFrom_succ_left, hstep]⟩
          · obtain ⟨k, r, hk⟩ := ihm s' (by omega) (by omega) (by omega)
            exact ⟨k + 1, r, by rw [astarIterFrom_succ_left, hstep]; exact hk⟩
          · have h1' : s'.numIters < maxIterations := by omega
            obtain ⟨k, r, hk⟩ := ihn s'.toSee.length s' h1' (by omega) (le_refl _)
            exact ⟨k + 1, r, by rw [astarIterFrom_succ_left, hstep]; exact hk⟩

theorem astar_numIters_invariant {N C : Type} [DecidableEq N] [LinearOrder C]
    [Zero C] [Add C] (start : N) (successors : N → List (N × C))
    (heuristic : N → C) (success : N → Bool) (maxIterations : Nat)
    (hpos : 1 ≤ maxIterations) :
    ∀ j s', astarIter start successors heuristic success maxIterations j = .inr s' →
      s'.numIters < maxIterations := by
  intro j
  induction j with
  | zero =>
      intro s' h
      have : (astarInit start heuristic : SearchState N C) = s' := by
        injection h
      rw [← this]
      exact hpos
  | succ j ih =>
      intro s' h
      have hdef : astarIter start successors heuristic success maxIterations (j + 1)
          = match astarIter start successors heuristic success maxIterations j with
            | .inl r => .inl r
            | .inr s => astarStep successors heuristic success maxIterations s := rfl
      rw [hdef] at h
      cases hj : astarIter start successors heuristic success maxIterations j with
      | inl r =>
          rw [hj] at h
          dsimp only at h
          exact absurd h (by simp)
      | inr s =>
          rw [hj] at h
          dsimp only at h
          have hs := ih s hj
          rcases astarStep_cases successors heuristic success maxIterations s with
            ⟨r, hstep⟩ | ⟨s'', hstep, hn', hl⟩ | ⟨s'', hstep, hn', hne⟩
          · rw [hstep] at h
            exact absurd h (by simp)
          · rw [hstep] at h
            have he : s'' = s' := by injection h
            subst he
            omega
          · rw [hstep] at h
            have he : s'' = s' := by injection h
            subst he
            omega

/-- One unfolding of the walk: peel the first parent-pointer hop. -/
theorem walkIdx_succ {N C : Type} (p : Parents N C) (i n : Nat) :
    walkIdx p i (n + 1)
      = match p.get? i with
        | none => none
        | some e => walkIdx p e.2.1 n := rfl

/-- Splitting the walk: `n + m` hops are `n` hops then `m` more. -/
theorem walkIdx_add {N C : Type} (p : Parents N C) (m : Nat) :
    ∀ n i : Nat, walkIdx p i (n + m)
      = (walkIdx p i n).bind (fun j => walkIdx p j m) := by
  intro n
  induction n with
  | zero => intro i; rw [Nat.zero_add]; rfl
  | succ n ih =>
      intro i
      have h1 : n + 1 + m = (n + m) + 1 := by omega
      rw [h1, walkIdx_succ, walkIdx_succ]
      cases hget : p.get? i with
      | none => rfl
      | some e => exact ih e.2.1

/-- Once the walk has left the table it stays out: `none` is absorbing. -/
theorem walkIdx_none_mono {N C : Type} (p : Parents N C) (i n m : Nat)
    (h : walkIdx p i n = none) (hnm : n ≤ m) : walkIdx p i m = none := by
  have h1 : m = n + (m - n) := by omega
  rw [h1, walkIdx_add p (m - n) n i, h]
  rfl

/-- If the next hop succeeds, the current index is inside the table. -/
theorem walkIdx_bound {N C : Type} (p : Parents N C) (k i j : Nat)
    (hne : walkIdx p i (k + 1) ≠ none) (hk : walkIdx p i k = some j) :
    j < p.length := by
  have h1 : walkIdx p i (k + 1) = (walkIdx p i k).bind (fun j => walkIdx p j 1) :=
    walkIdx_add p 1 k i
  rw [hk] at h1
  cases hget : p.get? j with
  | none =>
      exfalso
      apply hne
      rw [h1]
      have h2 := walkIdx_succ p j 0
      rw [hget] at h2
      exact h2
  | some e =>
      by_contra hlen
      rw [List.get?_eq_none.mpr (by omega)] at hget
      exact absurd hget (by simp)

/-- Pigeonhole: a walk that survives `length + 1` hops revisits an index. -/
theorem walkIdx_repeat {N C : Type} (p : Parents N C) (i : Nat)
    (h : walkIdx p i (p.length + 1) ≠ none) :
    ∃ a b, a < b ∧ b ≤ p.length ∧ walkIdx p i a = walkIdx p i b := by
  have hall : ∀ k, k ≤ p.length + 1 → walkIdx p i k ≠ none := by
    intro k hk hnone
    exact h (walkIdx_none_mono p i k (p.length + 1) hnone hk)
  have hsome : ∀ k, k ≤ p.length → ∃ j, walkIdx p i k = some j ∧ j < p.length := by
    intro k hk
    cases hwk : walkIdx p i k with
    | none => exact absurd hwk (hall k (by omega))
    | some j =>
        exact ⟨j, rfl, walkIdx_bound p k i j (hall (k + 1) (by omega)) hwk⟩
  have hmaps : ∀ k ∈ Finset.range (p.length + 1),
      (walkIdx p i k).getD 0 ∈ Finset.range p.length := by
    intro k hk
    rw [Finset.mem_range] at hk
    obtain ⟨j, hj, hjl⟩ := hsome k (by omega)
    rw [hj]
    simpa using hjl
  have hcard : (Finset.range p.length).card < (Finset.range (p.length + 1)).card := by
    simp
  obtain ⟨a, ha, b, hb, hne, heq⟩ :=
    Finset.exists_ne_map_eq_of_card_lt_of_maps_to hcard hmaps
  rw [Finset.mem_range] at ha hb
  obtain ⟨ja, hja, -⟩ := hsome a (by omega)
  obtain ⟨jb, hjb, -⟩ := hsome b (by omega)
  rw [hja, hjb] at heq
  simp only [Option.getD_some] at heq
  rcases Nat.lt_or_ge a b with hab | hab
  · exact ⟨a, b, hab, by omega, by rw [hja, hjb, heq]⟩
  · have hba : b < a := by omega
    exact ⟨b, a, hba, by omega, by rw [hja, hjb, heq]⟩

/-- A walk that survives `length + 1` hops never leaves the table: it is
periodic, so the source's `reverse_path` loops forever on it. -/
theorem walkIdx_no_escape {N C : Type} (p : Parents N C) (i : Nat)
    (h : walkIdx p i (p.length + 1) ≠ none) :
    ∀ m, walkIdx p i m ≠ none := by
  obtain ⟨a, b, hab, hbL, heq⟩ := walkIdx_repeat p i h
  intro m
  induction m using Nat.strong_induction_on with
  | _ m ih =>
      by_cases hm : m ≤ p.length + 1
      · intro hnone
        exact h (walkIdx_none_mono p i m (p.length + 1) hnone hm)
      · have h1 : walkIdx p i m = (walkIdx p i b).bind (fun j => walkIdx p j (m - b)) := by
          have h0 := walkIdx_add p (m - b) b i
          rw [show b + (m - b) = m from by omega] at h0
          exact h0
        have h2 : walkIdx p i (a + (m - b))
            = (walkIdx p i a).bind (fun j => walkIdx p j (m - b)) :=
          walkIdx_add p (m - b) a i
        rw [heq] at h2
        rw [← h2] at h1
        rw [h1]
        exact ih (a + (m - b)) (by omega)

/-- Unfolding of the fuelled path collection when the lookup misses. -/
theorem reversePathAux_succ_none {N C : Type} (p : Parents N C) (f i : Nat)
    (acc : List N) (hget : p.get? i = none) :
    reversePathAux p (f + 1) i acc = some acc := by
  unfold reversePathAux
  rw [hget]

/-- Unfolding of the fuelled path collection when the lookup hits. -/
theorem reversePathAux_succ_some {N C : Type} (p : Parents N C) (f i : Nat)
    (acc : List N) (node : N) (pidx : Nat) (c : C)
    (hget : p.get? i = some (node, pidx, c)) :
    reversePathAux p (f + 1) i acc = reversePathAux p f pidx (node :: acc) := by
  conv_lhs => unfold reversePathAux
  rw [hget]

/-- The fuelled model exits iff the walk leaves the table within
`length + 1` lookups. -/
theorem reversePathAux_isSome_iff {N C : Type} (p : Parents N C) :
    ∀ (f i : Nat) (acc : List N),
      (reversePathAux p f i acc).isSome = true ↔ walkIdx p i f = none := by
  intro f
  induction f with
  | zero =>
      intro i acc
      simp [reversePathAux, walkIdx]
  | succ f ih =>
      intro i acc
      cases hget : p.get? i with
      | none =>
          constructor
          · intro _
            rw [walkIdx_succ, hget]
          · intro _
            rw [reversePathAux_succ_none p f i acc hget]
            rfl
      | some e =>
          obtain ⟨node, pidx, c⟩ := e
          have h1 : reversePathAux p (f + 1) i acc
              = reversePathAux p f pidx (node :: acc) :=
            reversePathAux_succ_some p f i acc node pidx c hget
          have h2 : walkIdx p i (f + 1) = walkIdx p pidx f := by
            rw [walkIdx_succ, hget]
          rw [h1, h2]
          exact ih pidx (node :: acc)

/-- Fidelity of the model: `reversePath` returns a path exactly when the
source's unbounded parent-index walk eventually leaves the table; `none`
is exactly the inputs on which the source's `reverse_path` diverges. -/
theorem reversePath_isSome_iff {N C : Type} (p : Parents N C) (start : Nat) :
    (reversePath p start).isSome = true ↔ ∃ n, walkIdx p start n = none := by
  rw [reversePath, reversePathAux_isSome_iff p (p.length + 1) start []]
  constructor
  · intro h
    exact ⟨p.length + 1, h⟩
  · rintro ⟨n, hn⟩
    by_cases hL : walkIdx p start (p.length + 1) = none
    · exact hL
    · exact absurd hn (walkIdx_no_escape p start hL n)

/-- **C8** (amended): for every cap `N ≥ 1` the bounded search's loop always
exits, and every in-flight loop state has performed strictly fewer than `N`
expansions (stale-entry pops are not counted, matching the source's
`num_iters`), so at most `N` expansions happen before the loop exits.  The
call then *returns* exactly when `reverse_path`'s parent-index walk leaves
the parent table (third conjunct, the fidelity of `reversePath`): with
negative move costs the recorded parent chain can cycle, and on the concrete
instance of the fourth conjunct the source's `reverse_path` loops forever
(`AstarOutcome.diverged`), so return is not unconditional.  The original
claim also fails at `N = 0`: the `num_iters == max_iterations` test runs
only after the first increment, see the counterexample. -/
theorem bounded_search_terminates {N C : Type} [DecidableEq N] [LinearOrder C]
    [Zero C] [Add C] (start : N) (successors : N → List (N × C))
    (heuristic : N → C) (success : N → Bool) (maxIterations : Nat)
    (hpos : 1 ≤ maxIterations) :
    (∃ k o, astarIter start successors heuristic success maxIterations k = .inl o)
    ∧ (∀ j s', astarIter start successors heuristic success maxIterations j = .inr s' →
        s'.numIters < maxIterations)
    ∧ (∀ (p : Parents N C) (idx : Nat),
        (reversePath p idx).isSome = true ↔ ∃ n, walkIdx p idx n = none)
    ∧ astarIter (0 : Int) c8CycleSuccessors c8CycleHeuristic c8Success 3 3
        = Sum.inl AstarOutcome.diverged := by
  refine ⟨?_, ?_, ?_, ?_⟩
  · exact astar_terminates_aux successors heuristic success maxIterations
      (maxIterations - (astarInit start heuristic : SearchState N C).numIters)
      (astarInit start heuristic : SearchState N C).toSee.length
      (astarInit start heuristic) hpos (le_refl _) (le_refl _)
  · exact astar_numIters_invariant start successors heuristic success maxIterations hpos
  · exact fun p idx => reversePath_isSome_iff p idx
  · decide

/-- Witness for C8 (amended) at a concrete input: the infinite-chain instance
with cap 1 terminates. -/
theorem bounded_search_terminates_witness :
    1 ≤ 1
    ∧ (∃ k r, astarIter (0 : Int) c8Successors c8Heuristic c8Success 1 k = .inl r) :=
  ⟨by decide,
   (bounded_search_terminates (0 : Int) c8Successors c8Heuristic c8Success 1
     (by decide)).1⟩

end VoxelMapper
